import Mathlib

/-!
Verification of the LC-IMS-MS/MS feature finder's reconciliation core
(`feature_finder_im.py`): IM binning, anchor-based m/z merging, bin
statistics, and the three feature-matching stages.

Floats are modelled as rationals (`ℚ`); Python's `int()` truncation is
modelled explicitly.  Helper functions that live in `common_utils_im`
(not part of the sources at hand) are modelled from the spec and marked
as such in their doc comments.
-/

namespace FFIM

/-- A 4D data point (RT, m/z, intensity, IM): the `[rt, mz, intensity, im]`
lists produced by `get_spectrum_points`. -/
structure Point where
  rt : ℚ
  mz : ℚ
  intensity : ℚ
  im : ℚ
deriving DecidableEq, Inhabited

/-- `MZ_EPSILON` class constant of `FeatureFinderIonMobility` (0.001). -/
def MZ_EPSILON : ℚ := 1/1000

/-- `RT_THRESHOLD` class constant (5.0). -/
def RT_THRESHOLD : ℚ := 5

/-- `MZ_THRESHOLD` class constant (0.01). -/
def MZ_THRESHOLD : ℚ := 1/100

/-- `within_epsilon`: checks if `var` is within the m/z epsilon of `target`. -/
def within_epsilon (target var : ℚ) : Prop :=
  target - MZ_EPSILON ≤ var ∧ var ≤ target + MZ_EPSILON

instance (target var : ℚ) : Decidable (within_epsilon target var) :=
  inferInstanceAs (Decidable (_ ∧ _))

/-- One iteration of the m/z-merge loop of `bin_spectrum`: the state is
(the anchor point `temp_bins[pass][i][mz_start]`, `running_intensity`,
the points emitted into `new_bins[pass][i]` so far). -/
def mergeStep (st : Point × ℚ × List Point) (q : Point) : Point × ℚ × List Point :=
  if within_epsilon st.1.mz q.mz then (st.1, st.2.1 + q.intensity, st.2.2)
  else (q, q.intensity, st.2.2 ++ [{ st.1 with intensity := st.2.1 }])

/-- The emission for the last m/z slice after the merge loop of
`bin_spectrum` (the trailing `point = list(...); point[2] = ...; append`). -/
def finishMerge (st : Point × ℚ × List Point) : List Point :=
  st.2.2 ++ [{ st.1 with intensity := st.2.1 }]

/-- The anchor-based m/z merge of `bin_spectrum` applied to one bin's
point list (already sorted by ascending m/z): the loop over
`temp_bins[pass][i]` followed by the final emission for the last slice. -/
def mergePoints : List Point → List Point
  | [] => []
  | p :: ps => finishMerge ((p :: ps).foldl mergeStep (p, 0, []))

/-- Spec-side characterization (for comparison with `mergePoints`): a run
accumulates consecutive points while each point's m/z is within
`MZ_EPSILON` of the run's first point's m/z. -/
def specRunsAux (anchor : Point) (acc : List Point) : List Point → List (List Point)
  | [] => [acc]
  | q :: qs =>
    if within_epsilon anchor.mz q.mz then specRunsAux anchor (acc ++ [q]) qs
    else acc :: specRunsAux q [q] qs

/-- Spec-side partition of a point list into anchor-based m/z runs. -/
def specRuns : List Point → List (List Point)
  | [] => []
  | p :: ps => specRunsAux p [p] ps

/-- Recursive form of the m/z-merge loop, used to bridge the `foldl`
formulation with the run partition. -/
def mergeAux (anchor : Point) (running : ℚ) : List Point → List Point
  | [] => [{ anchor with intensity := running }]
  | q :: qs =>
    if within_epsilon anchor.mz q.mz then mergeAux anchor (running + q.intensity) qs
    else { anchor with intensity := running } :: mergeAux q q.intensity qs

lemma foldl_mergeStep_eq_mergeAux (l : List Point) :
    ∀ (anchor : Point) (running : ℚ) (out : List Point),
      finishMerge (l.foldl mergeStep (anchor, running, out)) = out ++ mergeAux anchor running l := by
  induction l with
  | nil => intro anchor running out; simp [mergeAux, finishMerge]
  | cons q qs ih =>
    intro anchor running out
    simp only [List.foldl_cons, mergeStep, mergeAux]
    by_cases h : within_epsilon anchor.mz q.mz
    · simp only [if_pos h]
      exact ih anchor (running + q.intensity) out
    · simp only [if_neg h]
      have h2 := ih q q.intensity (out ++ [{ anchor with intensity := running }])
      simp only [List.append_assoc, List.singleton_append] at h2 ⊢
      exact h2

lemma mergeAux_eq_specRuns (l : List Point) :
    ∀ (a : Point) (as : List Point) (running : ℚ),
      a.intensity + (as.map Point.intensity).sum = running →
      mergeAux a running l
        = (specRunsAux a (a :: as) l).map
            (fun r => { r.headI with intensity := (r.map Point.intensity).sum }) := by
  induction l with
  | nil =>
    intro a as running hrun
    simp [mergeAux, specRunsAux, List.headI, ← hrun]
  | cons q qs ih =>
    intro a as running hrun
    simp only [mergeAux, specRunsAux]
    by_cases h : within_epsilon a.mz q.mz
    · simp only [if_pos h]
      have hacc : (a :: (as ++ [q])) = (a :: as) ++ [q] := by simp
      rw [ih a (as ++ [q]) (running + q.intensity) (by simp [← hrun]; ring), ← hacc]
    · simp only [if_neg h]
      rw [ih q [] q.intensity (by simp)]
      simp [List.headI, ← hrun]

/-- C1: every point emitted by the anchor-based m/z merge step keeps the
run's first point's RT/m/z/IM and carries intensity equal to the sum of
the intensities of the points in its run, where a run accumulates
consecutive points while each point's m/z is within `MZ_EPSILON` of the
run's first point's m/z. -/
theorem claim_C1 (l : List Point) :
    mergePoints l
      = (specRuns l).map
          (fun r => { r.headI with intensity := (r.map Point.intensity).sum }) := by
  cases l with
  | nil => rfl
  | cons p ps =>
    have hfirst : within_epsilon p.mz p.mz := by
      unfold within_epsilon MZ_EPSILON
      constructor <;> linarith
    simp only [mergePoints, specRuns]
    rw [show (p :: ps).foldl mergeStep (p, 0, []) = ps.foldl mergeStep (p, 0 + p.intensity, []) by
      simp [mergeStep, if_pos hfirst]]
    rw [foldl_mergeStep_eq_mergeAux ps p (0 + p.intensity) []]
    rw [mergeAux_eq_specRuns ps p [] (0 + p.intensity) (by simp)]
    simp

/-- Python `int()` applied to an exact rational value: truncation toward
zero (floor for nonnegative arguments, ceiling for negative ones). -/
def pyInt (q : ℚ) : ℤ := if 0 ≤ q then ⌊q⌋ else ⌈q⌉

/-- The binning configuration established by `setup_bins`: `num_bins` and
the global IM extrema `im_start`/`im_end` of the dataset. -/
structure BinState where
  num_bins : ℕ
  im_start : ℚ
  im_end : ℚ
deriving DecidableEq

/-- `self.bin_size = self.im_delta / self.num_bins` where
`im_delta = im_end - im_start`. -/
def BinState.bin_size (s : BinState) : ℚ := (s.im_end - s.im_start) / s.num_bins

/-- `self.im_offset = self.im_start + self.bin_size / 2.0`. -/
def BinState.im_offset (s : BinState) : ℚ := s.im_start + s.bin_size / 2

/-- Pass-0 bin assignment of `bin_spectrum`:
`bin_idx = int((im - im_start) / bin_size)`, clamped to `num_bins - 1`. -/
def pass0Bin (s : BinState) (im : ℚ) : ℤ :=
  let bin_idx := pyInt ((im - s.im_start) / s.bin_size)
  if bin_idx ≥ (s.num_bins : ℤ) then (s.num_bins : ℤ) - 1 else bin_idx

/-- Pass-1 bin assignment of `bin_spectrum` (offset grid):
`bin_idx = int((im - im_offset) / bin_size) + 1`, sent to `0` below the
offset and clamped to `num_bins` above. -/
def pass1Bin (s : BinState) (im : ℚ) : ℤ :=
  let bin_idx := pyInt ((im - s.im_offset) / s.bin_size) + 1
  if im < s.im_offset then 0
  else if bin_idx > (s.num_bins : ℤ) then (s.num_bins : ℤ) else bin_idx

/-- The contents of `temp_bins[0][i]` after the assignment loop of
`bin_spectrum` (appends preserve the traversal order of `points`). -/
def tempBin0 (s : BinState) (points : List Point) (i : ℤ) : List Point :=
  points.filter (fun p => pass0Bin s p.im = i)

/-- The contents of `temp_bins[1][i]` after the assignment loop of
`bin_spectrum`. -/
def tempBin1 (s : BinState) (points : List Point) (i : ℤ) : List Point :=
  points.filter (fun p => pass1Bin s p.im = i)

lemma sum_length_filter_eq {α : Type} (l : List α) (f : α → ℤ) (n : ℕ)
    (h : ∀ a ∈ l, ∃ k : ℕ, k < n ∧ f a = k) :
    ∑ i ∈ Finset.range n, (l.filter (fun a => f a = (i : ℤ))).length = l.length := by
  induction l with
  | nil => simp
  | cons a l ih =>
    obtain ⟨k, hk, hfk⟩ := h a (by simp)
    have hsplit : ∀ i : ℕ, ((a :: l).filter (fun x => f x = (i : ℤ))).length
        = (if i = k then 1 else 0) + (l.filter (fun x => f x = (i : ℤ))).length := by
      intro i
      by_cases hik : i = k
      · subst hik; simp [List.filter_cons, hfk, Nat.add_comm]
      · have hne : ¬ (f a = (i : ℤ)) := by
          rw [hfk]; exact_mod_cast fun hc => hik (by exact_mod_cast hc.symm)
        simp [List.filter_cons, hne, hik]
    calc ∑ i ∈ Finset.range n, ((a :: l).filter (fun x => f x = (i : ℤ))).length
        = ∑ i ∈ Finset.range n,
            ((if i = k then 1 else 0) + (l.filter (fun x => f x = (i : ℤ))).length) :=
          Finset.sum_congr rfl (fun i _ => hsplit i)
      _ = (∑ i ∈ Finset.range n, if i = k then 1 else 0)
            + ∑ i ∈ Finset.range n, (l.filter (fun x => f x = (i : ℤ))).length :=
          Finset.sum_add_distrib
      _ = 1 + l.length := by
          rw [Finset.sum_ite_eq' (Finset.range n) k (fun _ => 1),
              if_pos (Finset.mem_range.mpr hk), ih (fun x hx => h x (by simp [hx]))]
      _ = (a :: l).length := by simp [Nat.add_comm]

/-- C2: for IM values inside `[im_start, im_end]`, the pass-0 bin index is
the clamped floor `min ⌊(im-im_start)/bin_size⌋ (num_bins-1)` and lies in
`[0, num_bins-1]`; the pass-1 bin index is `⌊(im-im_offset)/bin_size⌋+1`
with the two special-cased clamps and lies in `[0, num_bins]`; hence each
pass partitions the input points with no loss or duplication. -/
theorem claim_C2 (s : BinState) (points : List Point)
    (hn : 1 ≤ s.num_bins) (hlt : s.im_start < s.im_end)
    (hmem : ∀ p ∈ points, s.im_start ≤ p.im ∧ p.im ≤ s.im_end) :
    (∀ p ∈ points,
        pass0Bin s p.im = min ⌊(p.im - s.im_start) / s.bin_size⌋ ((s.num_bins : ℤ) - 1) ∧
        0 ≤ pass0Bin s p.im ∧ pass0Bin s p.im ≤ (s.num_bins : ℤ) - 1) ∧
    (∀ p ∈ points,
        pass1Bin s p.im
          = (if p.im < s.im_offset then 0
             else min (⌊(p.im - s.im_offset) / s.bin_size⌋ + 1) (s.num_bins : ℤ)) ∧
        0 ≤ pass1Bin s p.im ∧ pass1Bin s p.im ≤ (s.num_bins : ℤ)) ∧
    (∑ i ∈ Finset.range s.num_bins, (tempBin0 s points (i : ℤ)).length = points.length) ∧
    (∑ i ∈ Finset.range (s.num_bins + 1), (tempBin1 s points (i : ℤ)).length = points.length) := by
  have hnQ : (0 : ℚ) < (s.num_bins : ℚ) := by
    have : (0 : ℕ) < s.num_bins := hn
    exact_mod_cast this
  have hsize : 0 < s.bin_size := div_pos (by linarith) hnQ
  have h0 : ∀ p ∈ points,
      pass0Bin s p.im = min ⌊(p.im - s.im_start) / s.bin_size⌋ ((s.num_bins : ℤ) - 1) ∧
      0 ≤ pass0Bin s p.im ∧ pass0Bin s p.im ≤ (s.num_bins : ℤ) - 1 := by
    intro p hp
    obtain ⟨hlo, _⟩ := hmem p hp
    have hq : 0 ≤ (p.im - s.im_start) / s.bin_size := div_nonneg (by linarith) hsize.le
    have hfl : 0 ≤ ⌊(p.im - s.im_start) / s.bin_size⌋ := Int.floor_nonneg.mpr hq
    unfold pass0Bin pyInt
    rw [if_pos hq]
    by_cases hge : ⌊(p.im - s.im_start) / s.bin_size⌋ ≥ (s.num_bins : ℤ)
    · rw [if_pos hge]
      refine ⟨?_, by omega, by omega⟩
      omega
    · rw [if_neg hge]
      refine ⟨?_, hfl, by omega⟩
      omega
  have h1 : ∀ p ∈ points,
      pass1Bin s p.im
        = (if p.im < s.im_offset then 0
           else min (⌊(p.im - s.im_offset) / s.bin_size⌋ + 1) (s.num_bins : ℤ)) ∧
      0 ≤ pass1Bin s p.im ∧ pass1Bin s p.im ≤ (s.num_bins : ℤ) := by
    intro p hp
    unfold pass1Bin pyInt
    by_cases hbelow : p.im < s.im_offset
    · rw [if_pos hbelow, if_pos hbelow]
      exact ⟨rfl, le_refl 0, by omega⟩
    · have hq : 0 ≤ (p.im - s.im_offset) / s.bin_size :=
        div_nonneg (by linarith [not_lt.mp hbelow]) hsize.le
      have hfl : 0 ≤ ⌊(p.im - s.im_offset) / s.bin_size⌋ := Int.floor_nonneg.mpr hq
      rw [if_neg hbelow, if_neg hbelow, if_pos hq]
      by_cases hov : ⌊(p.im - s.im_offset) / s.bin_size⌋ + 1 > (s.num_bins : ℤ)
      · rw [if_pos hov]
        refine ⟨?_, by omega, by omega⟩
        omega
      · rw [if_neg hov]
        refine ⟨?_, by omega, by omega⟩
        omega
  refine ⟨h0, h1, ?_, ?_⟩
  · apply sum_length_filter_eq
    intro p hp
    obtain ⟨_, hlo, hhi⟩ := h0 p hp
    exact ⟨(pass0Bin s p.im).toNat, by omega, by omega⟩
  · apply sum_length_filter_eq
    intro p hp
    obtain ⟨_, hlo, hhi⟩ := h1 p hp
    exact ⟨(pass1Bin s p.im).toNat, by omega, by omega⟩

/-- Witness for C2 at a concrete configuration and point list. -/
theorem claim_C2_witness :
    ∑ i ∈ Finset.range 2,
        (tempBin0 ⟨2, 0, 2⟩ [⟨0, 100, 1, 1/2⟩, ⟨0, 200, 1, 2⟩] (i : ℤ)).length = 2 :=
  (claim_C2 ⟨2, 0, 2⟩ [⟨0, 100, 1, 1/2⟩, ⟨0, 200, 1, 2⟩] (by norm_num) (by norm_num)
    (by intro p hp; fin_cases hp <;> exact ⟨by norm_num, by norm_num⟩)).2.2.1

/-- `compute_bin_im` on the points ever assigned to one bin: the loop sums
`total_intensity`, and if it is nonzero accumulates
`average_im += im * (intensity / total_intensity)`; otherwise the initial
`average_im = 0` is returned. -/
def compute_bin_im (points : List Point) : ℚ :=
  if (points.map Point.intensity).sum ≠ 0 then
    (points.map (fun p => p.im * (p.intensity / (points.map Point.intensity).sum))).sum
  else 0

lemma sum_map_div {α : Type} (l : List α) (f : α → ℚ) (c : ℚ) :
    (l.map (fun a => f a / c)).sum = (l.map f).sum / c := by
  induction l with
  | nil => simp
  | cons a l ih => simp [ih, add_div]

/-- C8: when a bin's total intensity is nonzero, `compute_bin_im` returns
the intensity-weighted average IM `Σ(IM·intensity) / Σ(intensity)`; when
the total intensity is zero it returns the fallback value 0. -/
theorem claim_C8 (points : List Point) :
    ((points.map Point.intensity).sum ≠ 0 →
        compute_bin_im points
          = (points.map (fun p => p.im * p.intensity)).sum / (points.map Point.intensity).sum) ∧
    ((points.map Point.intensity).sum = 0 → compute_bin_im points = 0) := by
  constructor
  · intro h
    unfold compute_bin_im
    rw [if_pos h]
    have hfun : (fun p : Point => p.im * (p.intensity / (points.map Point.intensity).sum))
        = fun p : Point => (p.im * p.intensity) / (points.map Point.intensity).sum := by
      funext p
      rw [mul_div_assoc]
    rw [hfun, sum_map_div points (fun p => p.im * p.intensity) ((points.map Point.intensity).sum)]
  · intro h
    unfold compute_bin_im
    rw [if_neg (fun hc => hc h)]

/-- Witness for C8: a bin holding (IM=1, intensity=10) and
(IM=3, intensity=30) averages to 2.5. -/
theorem claim_C8_witness :
    compute_bin_im [⟨0, 0, 10, 1⟩, ⟨0, 0, 30, 3⟩] = 5/2 := by
  have h := (claim_C8 [⟨0, 0, 10, 1⟩, ⟨0, 0, 30, 3⟩]).1 (by norm_num)
  rw [h]
  norm_num

/-- `points.sort(key=itemgetter(3))` — stable ascending-IM sort of the
flattened spectrum. -/
def sortByIm (points : List Point) : List Point :=
  points.insertionSort (fun p q => p.im ≤ q.im)

/-- `temp_bins[j][i].sort(key=itemgetter(1))` — stable ascending-m/z sort
of one bin's points. -/
def sortByMz (points : List Point) : List Point :=
  points.insertionSort (fun p q => p.mz ≤ q.mz)

/-- The synthetic 1D spectra appended to `self.exps[0][i]` by one
`bin_spectrum` call: none when the bin received no point of this spectrum
(the `if len(temp_bins[0][i]) == 0: continue` branch), else exactly one
merged spectrum. -/
def binSpectrumAppend0 (s : BinState) (spec : List Point) (i : ℤ) : List (List Point) :=
  if tempBin0 s (sortByIm spec) i = [] then []
  else [mergePoints (sortByMz (tempBin0 s (sortByIm spec) i))]

/-- The synthetic 1D spectra appended to `self.exps[1][i]` by one
`bin_spectrum` call. -/
def binSpectrumAppend1 (s : BinState) (spec : List Point) (i : ℤ) : List (List Point) :=
  if tempBin1 s (sortByIm spec) i = [] then []
  else [mergePoints (sortByMz (tempBin1 s (sortByIm spec) i))]

/-- The pseudo-spectrum accumulated for pass-0 bin `i` after binning a
list of source spectra in acquisition order. -/
def processSpectra0 (s : BinState) (specs : List (List Point)) (i : ℤ) : List (List Point) :=
  specs.foldl (fun acc sp => acc ++ binSpectrumAppend0 s sp i) []

/-- The pseudo-spectrum accumulated for pass-1 bin `i` after binning a
list of source spectra in acquisition order. -/
def processSpectra1 (s : BinState) (specs : List (List Point)) (i : ℤ) : List (List Point) :=
  specs.foldl (fun acc sp => acc ++ binSpectrumAppend1 s sp i) []

lemma length_foldl_append {α β : Type} (g : α → List β) (l : List α) :
    ∀ acc : List β, (l.foldl (fun acc a => acc ++ g a) acc).length
      = acc.length + (l.map (fun a => (g a).length)).sum := by
  induction l with
  | nil => intro acc; simp
  | cons a l ih =>
    intro acc
    simp only [List.foldl_cons, List.map_cons, List.sum_cons]
    rw [ih (acc ++ g a)]
    simp [Nat.add_assoc]

lemma sum_ite_eq_length_filter {α : Type} (p : α → Prop) [DecidablePred p] (l : List α) :
    (l.map (fun a => if p a then 1 else 0)).sum = (l.filter (fun a => p a)).length := by
  induction l with
  | nil => simp
  | cons a l ih => by_cases h : p a <;> simp [List.filter_cons, h, ih, Nat.add_comm]

/-- C9 counterexample: one source spectrum whose only point falls into
pass-0 bin 0 appends nothing to pass-0 bin 1, so after processing one
spectrum that bin's pseudo-spectrum holds zero synthetic spectra, not
one per source spectrum. -/
theorem claim_C9_counterexample :
    (processSpectra0 ⟨2, 0, 2⟩ [[⟨0, 100, 1, 1/2⟩]] 1).length
      ≠ ([[⟨0, 100, 1, 1/2⟩]] : List (List Point)).length := by
  have hbin : pass0Bin ⟨2, 0, 2⟩ (1/2) = 0 := by
    norm_num [pass0Bin, pyInt, BinState.bin_size]
  norm_num [processSpectra0, binSpectrumAppend0, tempBin0, sortByIm,
    List.insertionSort, List.orderedInsert, List.filter, hbin]

/-- C9 amended: a `bin_spectrum` call appends exactly one synthetic
spectrum to a bin when the bin received at least one point of the source
spectrum, and nothing otherwise; hence after processing a list of spectra
a bin's pseudo-spectrum holds one synthetic spectrum per contributing
source spectrum (in acquisition order). -/
theorem claim_C9_amended (s : BinState) (specs : List (List Point)) (i : ℤ) :
    (processSpectra0 s specs i).length
        = (specs.filter (fun sp => tempBin0 s (sortByIm sp) i ≠ [])).length ∧
    (processSpectra1 s specs i).length
        = (specs.filter (fun sp => tempBin1 s (sortByIm sp) i ≠ [])).length := by
  constructor
  · rw [processSpectra0, length_foldl_append]
    have hlen : ∀ sp : List Point, (binSpectrumAppend0 s sp i).length
        = if tempBin0 s (sortByIm sp) i ≠ [] then 1 else 0 := by
      intro sp
      unfold binSpectrumAppend0
      by_cases h : tempBin0 s (sortByIm sp) i = [] <;> simp [h]
    simp only [hlen]
    rw [sum_ite_eq_length_filter (fun sp => tempBin0 s (sortByIm sp) i ≠ []) specs]
    simp
  · rw [processSpectra1, length_foldl_append]
    have hlen : ∀ sp : List Point, (binSpectrumAppend1 s sp i).length
        = if tempBin1 s (sortByIm sp) i ≠ [] then 1 else 0 := by
      intro sp
      unfold binSpectrumAppend1
      by_cases h : tempBin1 s (sortByIm sp) i = [] <;> simp [h]
    simp only [hlen]
    rw [sum_ite_eq_length_filter (fun sp => tempBin1 s (sortByIm sp) i ≠ []) specs]
    simp

/-- A 2D feature as produced by the seed detector: RT and m/z position,
intensity, and the convex-hull points. -/
structure Feature where
  rt : ℚ
  mz : ℚ
  intensity : ℚ
  hull : List (ℚ × ℚ)
deriving DecidableEq, Inhabited

/-- Modelled from the spec: `util.similar_features` of `common_utils_im`
(not among the sources at hand) — true iff both the RT distance and the
m/z distance are within the given symmetric thresholds. -/
def similar_features (f1 f2 : Feature) (rtThreshold mzThreshold : ℚ) : Prop :=
  |f1.rt - f2.rt| ≤ rtThreshold ∧ |f1.mz - f2.mz| ≤ mzThreshold

instance (f1 f2 : Feature) (rtT mzT : ℚ) : Decidable (similar_features f1 f2 rtT mzT) :=
  inferInstanceAs (Decidable (_ ∧ _))

/-- Cyclic shoelace cross-product sum over the hull edges, closing the
polygon back to its first vertex. -/
def shoelaceAux (first : ℚ × ℚ) : List (ℚ × ℚ) → ℚ
  | [] => 0
  | [p] => p.1 * first.2 - first.1 * p.2
  | p :: q :: rest => (p.1 * q.2 - q.1 * p.2) + shoelaceAux first (q :: rest)

/-- Modelled from the spec: `util.polygon_area` of `common_utils_im` (not
among the sources at hand) — the absolute area enclosed by an ordered
polygon, by the shoelace formula. -/
def polygon_area : List (ℚ × ℚ) → ℚ
  | [] => 0
  | p :: rest => |shoelaceAux p (p :: rest)| / 2

/-- Modelled from the spec: `util.binary_search_left_rt` and
`util.binary_search_left_rt2` of `common_utils_im` (not among the sources
at hand) — the leftmost index whose RT is at least the target, or the
sequence length when none exists; modelled by this contract rather than
by the binary-search implementation. -/
def boundedLeftSearch {α : Type} (rtOf : α → ℚ) (target : ℚ) : List α → ℕ
  | [] => 0
  | a :: l => if target ≤ rtOf a then 0 else boundedLeftSearch rtOf target l + 1

lemma boundedLeftSearch_le_length {α : Type} (rtOf : α → ℚ) (target : ℚ) :
    ∀ l : List α, boundedLeftSearch rtOf target l ≤ l.length := by
  intro l
  induction l with
  | nil => simp [boundedLeftSearch]
  | cons a l ih =>
    simp only [boundedLeftSearch, List.length_cons]
    split
    · omega
    · omega

lemma boundedLeftSearch_lt_not {α : Type} (rtOf : α → ℚ) (target : ℚ) :
    ∀ (l : List α) (k : ℕ) (d : α), k < boundedLeftSearch rtOf target l →
      ¬ target ≤ rtOf (l.getD k d) := by
  intro l
  induction l with
  | nil => intro k d hk; simp [boundedLeftSearch] at hk
  | cons a l ih =>
    intro k d hk
    simp only [boundedLeftSearch] at hk
    split at hk
    · omega
    · cases k with
      | zero => simpa using ‹¬ target ≤ rtOf a›
      | succ k => exact ih k d (by omega)

/-- `features.sortByRT()` modelled as a stable ascending-RT sort. -/
def sortFeaturesByRt (features : List Feature) : List Feature :=
  features.insertionSort (fun a b => a.rt ≤ b.rt)

/-- The max-area selection loop shared by the matching stages: starts from
an initial candidate and replaces it whenever a strictly larger polygon
area is found (`if area > max_area`). -/
def maxAreaFold (init : Feature) (l : List Feature) : Feature :=
  l.foldl (fun best f2 => if polygon_area best.hull < polygon_area f2.hull then f2 else best) init

/-- The window scan of `match_features_internal`: iterates `j` upward from
the bounded-search start over the remaining suffix, skips `i == j`, breaks
once past the RT window, and collects the similar features. -/
def collectSimilarGo (f1 : Feature) (i : ℕ) : ℕ → List Feature → List Feature
  | _, [] => []
  | j, f2 :: rest =>
    if i = j then collectSimilarGo f1 i (j + 1) rest
    else if f1.rt + RT_THRESHOLD < f2.rt then []
    else if similar_features f1 f2 RT_THRESHOLD MZ_THRESHOLD then
      f2 :: collectSimilarGo f1 i (j + 1) rest
    else collectSimilarGo f1 i (j + 1) rest

/-- One iteration of the outer loop of `match_features_internal` for
anchor index `i`: collect the similar peers, take the max-area
representative, and push it if not already present by value. -/
def matchInternalStep (fs : List Feature) (matched : List Feature) (i : ℕ) : List Feature :=
  let f1 := fs.getD i default
  let first := boundedLeftSearch Feature.rt (f1.rt - RT_THRESHOLD) fs
  let best := maxAreaFold f1 (collectSimilarGo f1 i first (fs.drop first))
  if best ∈ matched then matched else matched ++ [best]

/-- `match_features_internal`: sort by RT, then for each feature cluster
it with its RT/mz-similar peers inside the bounded RT window and keep the
max-area representative of the cluster. -/
def match_features_internal (features : List Feature) : List Feature :=
  (List.range (sortFeaturesByRt features).length).foldl
    (matchInternalStep (sortFeaturesByRt features)) []

lemma collectSimilarGo_subset (f1 : Feature) (i : ℕ) :
    ∀ (l : List Feature) (j : ℕ) (f : Feature), f ∈ collectSimilarGo f1 i j l → f ∈ l := by
  intro l
  induction l with
  | nil => intro j f h; simp [collectSimilarGo] at h
  | cons f2 rest ih =>
    intro j f h
    simp only [collectSimilarGo] at h
    by_cases h1 : i = j
    · rw [if_pos h1] at h
      exact List.mem_cons_of_mem _ (ih (j + 1) f h)
    · rw [if_neg h1] at h
      by_cases h2 : f1.rt + RT_THRESHOLD < f2.rt
      · rw [if_pos h2] at h; simp at h
      · rw [if_neg h2] at h
        by_cases h3 : similar_features f1 f2 RT_THRESHOLD MZ_THRESHOLD
        · rw [if_pos h3] at h
          rcases List.mem_cons.mp h with h | h
          · exact h ▸ List.mem_cons_self _ _
          · exact List.mem_cons_of_mem _ (ih (j + 1) f h)
        · rw [if_neg h3] at h
          exact List.mem_cons_of_mem _ (ih (j + 1) f h)

lemma foldl_max_mem {α : Type} (g : α → ℚ) (l : List α) :
    ∀ init : α, (l.foldl (fun best x => if g best < g x then x else best) init) = init
      ∨ (l.foldl (fun best x => if g best < g x then x else best) init) ∈ l := by
  induction l with
  | nil => intro init; simp
  | cons a l ih =>
    intro init
    simp only [List.foldl_cons]
    by_cases h : g init < g a
    · rw [if_pos h]
      rcases ih a with h2 | h2
      · refine Or.inr ?_
        rw [h2]
        exact List.mem_cons_self _ _
      · exact Or.inr (List.mem_cons_of_mem _ h2)
    · rw [if_neg h]
      rcases ih init with h2 | h2
      · exact Or.inl h2
      · exact Or.inr (List.mem_cons_of_mem _ h2)

lemma foldl_max_ge {α : Type} (g : α → ℚ) (l : List α) :
    ∀ init : α, g init ≤ g (l.foldl (fun best x => if g best < g x then x else best) init)
      ∧ ∀ x ∈ l, g x ≤ g (l.foldl (fun best x => if g best < g x then x else best) init) := by
  induction l with
  | nil => intro init; simp
  | cons a l ih =>
    intro init
    simp only [List.foldl_cons]
    by_cases h : g init < g a
    · rw [if_pos h]
      obtain ⟨h1, h2⟩ := ih a
      refine ⟨le_trans h.le h1, ?_⟩
      intro x hx
      rcases List.mem_cons.mp hx with hx | hx
      · rw [hx]
        exact h1
      · exact h2 x hx
    · rw [if_neg h]
      obtain ⟨h1, h2⟩ := ih init
      refine ⟨h1, ?_⟩
      intro x hx
      rcases List.mem_cons.mp hx with hx | hx
      · rw [hx]
        exact le_trans (not_lt.mp h) h1
      · exact h2 x hx

lemma getD_mem_of_lt {α : Type} (l : List α) (i : ℕ) (d : α) (h : i < l.length) :
    l.getD i d ∈ l := by
  rw [List.getD_eq_getElem l d h]
  exact List.getElem_mem h

lemma maxAreaFold_mem (init : Feature) (l : List Feature) :
    maxAreaFold init l = init ∨ maxAreaFold init l ∈ l := by
  unfold maxAreaFold
  exact foldl_max_mem (fun f => polygon_area f.hull) l init

lemma maxAreaFold_area_ge (init : Feature) (l : List Feature) :
    polygon_area init.hull ≤ polygon_area (maxAreaFold init l).hull
      ∧ ∀ x ∈ l, polygon_area x.hull ≤ polygon_area (maxAreaFold init l).hull := by
  unfold maxAreaFold
  exact foldl_max_ge (fun f => polygon_area f.hull) l init

lemma matchInternalStep_subset (fs : List Feature) (matched : List Feature) (i : ℕ)
    (hi : i < fs.length) (hm : ∀ g ∈ matched, g ∈ fs) :
    ∀ g ∈ matchInternalStep fs matched i, g ∈ fs := by
  intro g hg
  simp only [matchInternalStep] at hg
  split at hg
  · exact hm g hg
  · rcases List.mem_append.mp hg with hg | hg
    · exact hm g hg
    · have hbest := List.mem_singleton.mp hg
      subst hbest
      rcases maxAreaFold_mem (fs.getD i default) _ with h | h
      · rw [h]
        exact getD_mem_of_lt fs i default hi
      · exact List.mem_of_mem_drop (collectSimilarGo_subset _ _ _ _ _ h)

lemma foldl_internal_subset (fs : List Feature) :
    ∀ (idxs : List ℕ), (∀ i ∈ idxs, i < fs.length) →
      ∀ (acc : List Feature), (∀ g ∈ acc, g ∈ fs) →
        ∀ g ∈ idxs.foldl (matchInternalStep fs) acc, g ∈ fs := by
  intro idxs
  induction idxs with
  | nil => intro _ acc hacc g hg; exact hacc g hg
  | cons i idxs ih =>
    intro hb acc hacc g hg
    simp only [List.foldl_cons] at hg
    exact ih (fun k hk => hb k (List.mem_cons_of_mem _ hk)) (matchInternalStep fs acc i)
      (matchInternalStep_subset fs acc i (hb i (List.mem_cons_self _ _)) hacc) g hg

lemma match_features_internal_subset (features : List Feature) :
    ∀ f ∈ match_features_internal features, f ∈ features := by
  intro f hf
  have h1 : f ∈ sortFeaturesByRt features := by
    refine foldl_internal_subset (sortFeaturesByRt features) (List.range _) ?_ [] (by simp) f hf
    intro i hi
    exact List.mem_range.mp hi
  rw [sortFeaturesByRt] at h1
  exact (List.perm_insertionSort (fun a b => a.rt ≤ b.rt) features).subset h1

/-- C7 counterexample: intra-bin deduplication is not idempotent. With
three features at RT 0/5/10 (equal m/z) of areas 10/5/1, the first run
keeps the area-10 and area-5 features (the latter as representative of
the RT-10 anchor's cluster), which are RT-similar with distinct areas, so
a second run collapses them to the area-10 feature alone. -/
theorem claim_C7_counterexample :
    match_features_internal (match_features_internal
        [⟨0, 0, 1, [(0,0),(5,0),(5,2),(0,2)]⟩,
         ⟨5, 0, 1, [(0,0),(5,0),(5,1),(0,1)]⟩,
         ⟨10, 0, 1, [(0,0),(1,0),(1,1),(0,1)]⟩])
      ≠ match_features_internal
        [⟨0, 0, 1, [(0,0),(5,0),(5,2),(0,2)]⟩,
         ⟨5, 0, 1, [(0,0),(5,0),(5,1),(0,1)]⟩,
         ⟨10, 0, 1, [(0,0),(1,0),(1,1),(0,1)]⟩] := by
  have h1 : match_features_internal
      [⟨0, 0, 1, [(0,0),(5,0),(5,2),(0,2)]⟩,
       ⟨5, 0, 1, [(0,0),(5,0),(5,1),(0,1)]⟩,
       ⟨10, 0, 1, [(0,0),(1,0),(1,1),(0,1)]⟩]
      = [⟨0, 0, 1, [(0,0),(5,0),(5,2),(0,2)]⟩,
         ⟨5, 0, 1, [(0,0),(5,0),(5,1),(0,1)]⟩] := by
    norm_num [match_features_internal, sortFeaturesByRt, List.insertionSort,
      List.orderedInsert, matchInternalStep, boundedLeftSearch, collectSimilarGo,
      maxAreaFold, similar_features, RT_THRESHOLD, MZ_THRESHOLD, polygon_area,
      shoelaceAux, abs_le, List.range_succ]
  have h2 : match_features_internal
      [⟨0, 0, 1, [(0,0),(5,0),(5,2),(0,2)]⟩,
       ⟨5, 0, 1, [(0,0),(5,0),(5,1),(0,1)]⟩]
      = [⟨0, 0, 1, [(0,0),(5,0),(5,2),(0,2)]⟩] := by
    norm_num [match_features_internal, sortFeaturesByRt, List.insertionSort,
      List.orderedInsert, matchInternalStep, boundedLeftSearch, collectSimilarGo,
      maxAreaFold, similar_features, RT_THRESHOLD, MZ_THRESHOLD, polygon_area,
      shoelaceAux, abs_le, List.range_succ]
  rw [h1, h2]
  simp

/-- C7 amended: running the intra-bin deduplication on its own output can
only shrink it — every feature of the second run's output is a feature of
the first run's output (idempotence as set equality fails, see the
counterexample). -/
theorem claim_C7_amended (features : List Feature) (f : Feature)
    (h : f ∈ match_features_internal (match_features_internal features)) :
    f ∈ match_features_internal features :=
  match_features_internal_subset (match_features_internal features) f h

/-- Witness for the amended C7 on a concrete one-feature map. -/
theorem claim_C7_witness :
    (⟨0, 0, 1, []⟩ : Feature) ∈ match_features_internal [⟨0, 0, 1, []⟩] :=
  claim_C7_amended [⟨0, 0, 1, []⟩] ⟨0, 0, 1, []⟩ (by
    have h : match_features_internal [(⟨0, 0, 1, []⟩ : Feature)] = [⟨0, 0, 1, []⟩] := by
      norm_num [match_features_internal, sortFeaturesByRt, List.insertionSort,
        List.orderedInsert, matchInternalStep, boundedLeftSearch, collectSimilarGo,
        maxAreaFold, RT_THRESHOLD, List.range_succ]
    rw [h, h]
    simp)

/-- A chain record produced while matching one pass: the head position
`(bin_idx, i)`, the advanced links (`feature_indices[1:]`), and every
position consumed (marked used) while extending the chain. -/
structure ChainRec where
  head : ℕ × ℕ
  links : List (ℕ × ℕ)
  consumed : List (ℕ × ℕ)
deriving DecidableEq, Inhabited

/-- State of the `match_features_pass` loops: the per-bin `used` flags and
the accumulated `matched` output; `chains` instruments the
`feature_indices`/consumption bookkeeping of each emitted chain. -/
structure PassState where
  used : List (List Bool)
  matched : List (Feature × ℕ)
  chains : List ChainRec

/-- The window scan of the chain-extension loop: iterate `j` from the
bounded-search start over the suffix of the next bin, skip used features,
break once an unused feature lies past the RT window, and collect and
mark the similar candidates. Returns the collected `(feature, index)`
pairs and the updated flag suffix. -/
def scanSimilarGo (f1 : Feature) : ℕ → List Feature → List Bool → List (Feature × ℕ) × List Bool
  | _, [], us => ([], us)
  | _, _ :: _, [] => ([], [])
  | j, f2 :: rest, u :: us =>
    if u then
      let r := scanSimilarGo f1 (j + 1) rest us
      (r.1, u :: r.2)
    else if f1.rt + RT_THRESHOLD < f2.rt then ([], u :: us)
    else if similar_features f1 f2 RT_THRESHOLD MZ_THRESHOLD then
      let r := scanSimilarGo f1 (j + 1) rest us
      ((f2, j) :: r.1, true :: r.2)
    else
      let r := scanSimilarGo f1 (j + 1) rest us
      (r.1, u :: r.2)

/-- The max-area selection among the similar candidates of one extension
step (`max_feature = similar[0]`, then replace on strictly larger area). -/
def maxAreaPairFold (init : Feature × ℕ) (l : List (Feature × ℕ)) : Feature × ℕ :=
  l.foldl (fun best x => if polygon_area best.1.hull < polygon_area x.1.hull then x else best) init

/-- The chain-extension loop (`while next_idx < len(features)`) on the
suffix of bins/flags beyond the current head bin; `nb` is the absolute
bin index of the first suffix element. Returns the advanced links, all
consumed positions, and the updated flag suffixes. -/
def extendChainGo (f1 : Feature) : ℕ → List (List Feature) → List (List Bool) →
    List (ℕ × ℕ) × List (ℕ × ℕ) × List (List Bool)
  | _, [], us => ([], [], us)
  | _, _ :: _, [] => ([], [], [])
  | nb, bin :: bins, ub :: us =>
    let first := boundedLeftSearch Feature.rt (f1.rt - RT_THRESHOLD) bin
    let r := scanSimilarGo f1 first (bin.drop first) (ub.drop first)
    let ub2 := ub.take first ++ r.2
    match r.1 with
    | [] => ([], [], ub2 :: us)
    | s0 :: srest =>
      let maxf := maxAreaPairFold s0 srest
      let rec2 := extendChainGo f1 (nb + 1) bins us
      ((nb, maxf.2) :: rec2.1, ((s0 :: srest).map (fun x => (nb, x.2))) ++ rec2.2.1,
        ub2 :: rec2.2.2)

/-- Feature lookup at an absolute (bin, index) position. -/
def lookAt (bins : List (List Feature)) (p : ℕ × ℕ) : Feature :=
  (bins.getD p.1 []).getD p.2 default

/-- Flag lookup at an absolute (bin, index) position. -/
def flagAt (us : List (List Bool)) (p : ℕ × ℕ) : Bool :=
  (us.getD p.1 []).getD p.2 false

/-- Processing of one unused head feature at `(bin_idx, i)`: extend its
chain bin by bin, then keep the member of `feature_indices` with maximal
intensity together with the bin it came from. -/
def processHead (bins : List (List Feature)) (used : List (List Bool)) (bin_idx i : ℕ) :
    (Feature × ℕ) × ChainRec × List (List Bool) :=
  let f1 := lookAt bins (bin_idx, i)
  let r := extendChainGo f1 (bin_idx + 1) (bins.drop (bin_idx + 1)) (used.drop (bin_idx + 1))
  let rep := ((bin_idx, i) :: r.1).foldl
    (fun best p =>
      if best.1.intensity < (lookAt bins p).intensity then (lookAt bins p, p.1) else best)
    (f1, bin_idx)
  (rep, ⟨(bin_idx, i), r.1, r.2.1⟩, used.take (bin_idx + 1) ++ r.2.2)

/-- One iteration of the inner loop of `match_features_pass`
(`for i in range(features[bin_idx].size())`): skip used features,
otherwise build the chain of the head at `i` and record its
representative. -/
def passInnerStep (bins : List (List Feature)) (bin_idx : ℕ) (st : PassState) (i : ℕ) :
    PassState :=
  if (st.used.getD bin_idx []).getD i false then st
  else
    let r := processHead bins st.used bin_idx i
    ⟨r.2.2, st.matched ++ [r.1], st.chains ++ [r.2.1]⟩

/-- One iteration of the outer loop of `match_features_pass`
(`for bin_idx in range(len(features))`). -/
def passOuterStep (bins : List (List Feature)) (st : PassState) (bin_idx : ℕ) : PassState :=
  (List.range (bins.getD bin_idx []).length).foldl (passInnerStep bins bin_idx) st

/-- The core double loop of `match_features_pass` over the RT-sorted bins,
starting from all-false `used` flags, instrumented with the chain
bookkeeping. -/
def matchPassCore (bins : List (List Feature)) : PassState :=
  (List.range bins.length).foldl (passOuterStep bins)
    ⟨bins.map (fun b => List.replicate b.length false), [], []⟩

/-- `match_features_pass`: the per-bin in-place sorts leave every bin
sorted (modelled as one stable ascending-RT sort per bin); then chains of
similar features across consecutive bins are built greedily and each
chain's max-intensity representative is returned with its bin index. -/
def match_features_pass (features : List (List Feature)) : List (Feature × ℕ) :=
  (matchPassCore (features.map sortFeaturesByRt)).matched

lemma scanSimilarGo_spec (f1 : Feature) :
    ∀ (fs : List Feature) (us : List Bool) (j : ℕ), us.length = fs.length →
      (scanSimilarGo f1 j fs us).2.length = us.length
      ∧ (∀ p ∈ (scanSimilarGo f1 j fs us).1,
           j ≤ p.2 ∧ p.2 - j < fs.length
           ∧ us.getD (p.2 - j) false = false
           ∧ (scanSimilarGo f1 j fs us).2.getD (p.2 - j) false = true
           ∧ p.1 = fs.getD (p.2 - j) default)
      ∧ (∀ k : ℕ, (∀ p ∈ (scanSimilarGo f1 j fs us).1, p.2 ≠ j + k) →
           (scanSimilarGo f1 j fs us).2.getD k false = us.getD k false)
      ∧ List.Pairwise (fun a b : Feature × ℕ => a.2 < b.2) (scanSimilarGo f1 j fs us).1 := by
  intro fs
  induction fs with
  | nil =>
    intro us j hlen
    cases us with
    | cons a t => simp at hlen
    | nil => simp [scanSimilarGo]
  | cons f2 rest ih =>
    intro us j hlen
    cases us with
    | nil => simp at hlen
    | cons u us' =>
      have hlen' : us'.length = rest.length := by simpa using hlen
      obtain ⟨ih1, ih2, ih3, ih4⟩ := ih us' (j + 1) hlen'
      cases u with
      | true =>
        have hstep : scanSimilarGo f1 j (f2 :: rest) (true :: us')
            = ((scanSimilarGo f1 (j + 1) rest us').1,
                true :: (scanSimilarGo f1 (j + 1) rest us').2) := by
          simp [scanSimilarGo]
        rw [hstep]
        refine ⟨by simpa using ih1, ?_, ?_, ih4⟩
        · intro p hp
          obtain ⟨hj, hlt, hfalse, htrue, heq⟩ := ih2 p hp
          have hsub : p.2 - j = (p.2 - (j + 1)) + 1 := by omega
          rw [hsub]
          refine ⟨by omega, by simp only [List.length_cons]; omega, ?_, ?_, ?_⟩
          · rw [List.getD_cons_succ]; exact hfalse
          · rw [List.getD_cons_succ]; exact htrue
          · rw [List.getD_cons_succ]; exact heq
        · intro k hk
          cases k with
          | zero => simp
          | succ k =>
            rw [List.getD_cons_succ, List.getD_cons_succ]
            exact ih3 k (fun p hp => by have := hk p hp; omega)
      | false =>
        by_cases hbreak : f1.rt + RT_THRESHOLD < f2.rt
        · have hstep : scanSimilarGo f1 j (f2 :: rest) (false :: us')
              = ([], false :: us') := by
            simp [scanSimilarGo, hbreak]
          rw [hstep]
          refine ⟨rfl, by simp, fun k _ => rfl, by simp⟩
        · by_cases hsim : similar_features f1 f2 RT_THRESHOLD MZ_THRESHOLD
          · have hstep : scanSimilarGo f1 j (f2 :: rest) (false :: us')
                = ((f2, j) :: (scanSimilarGo f1 (j + 1) rest us').1,
                    true :: (scanSimilarGo f1 (j + 1) rest us').2) := by
              simp [scanSimilarGo, hbreak, hsim]
            rw [hstep]
            refine ⟨by simpa using ih1, ?_, ?_, ?_⟩
            · intro p hp
              rcases List.mem_cons.mp hp with hp | hp
              · subst hp
                simp
              · obtain ⟨hj, hlt, hfalse, htrue, heq⟩ := ih2 p hp
                have hsub : p.2 - j = (p.2 - (j + 1)) + 1 := by omega
                rw [hsub]
                refine ⟨by omega, by simp only [List.length_cons]; omega, ?_, ?_, ?_⟩
                · rw [List.getD_cons_succ]; exact hfalse
                · rw [List.getD_cons_succ]; exact htrue
                · rw [List.getD_cons_succ]; exact heq
            · intro k hk
              cases k with
              | zero =>
                exact absurd (by simp : ((f2, j) : Feature × ℕ).2 = j + 0)
                  (hk (f2, j) (List.mem_cons_self _ _))
              | succ k =>
                rw [List.getD_cons_succ, List.getD_cons_succ]
                exact ih3 k (fun p hp => by
                  have := hk p (List.mem_cons_of_mem _ hp); omega)
            · rw [List.pairwise_cons]
              refine ⟨?_, ih4⟩
              intro p hp
              have := (ih2 p hp).1
              omega
          · have hstep : scanSimilarGo f1 j (f2 :: rest) (false :: us')
                = ((scanSimilarGo f1 (j + 1) rest us').1,
                    false :: (scanSimilarGo f1 (j + 1) rest us').2) := by
              simp [scanSimilarGo, hbreak, hsim]
            rw [hstep]
            refine ⟨by simpa using ih1, ?_, ?_, ih4⟩
            · intro p hp
              obtain ⟨hj, hlt, hfalse, htrue, heq⟩ := ih2 p hp
              have hsub : p.2 - j = (p.2 - (j + 1)) + 1 := by omega
              rw [hsub]
              refine ⟨by omega, by simp only [List.length_cons]; omega, ?_, ?_, ?_⟩
              · rw [List.getD_cons_succ]; exact hfalse
              · rw [List.getD_cons_succ]; exact htrue
              · rw [List.getD_cons_succ]; exact heq
            · intro k hk
              cases k with
              | zero => simp
              | succ k =>
                rw [List.getD_cons_succ, List.getD_cons_succ]
                exact ih3 k (fun p hp => by have := hk p hp; omega)

lemma scanSimilarGo_monotone (f1 : Feature) (fs : List Feature) (us : List Bool) (j k : ℕ)
    (hlen : us.length = fs.length) (hk : us.getD k false = true) :
    (scanSimilarGo f1 j fs us).2.getD k false = true := by
  obtain ⟨_, h2, h3, _⟩ := scanSimilarGo_spec f1 fs us j hlen
  by_cases hex : ∃ p ∈ (scanSimilarGo f1 j fs us).1, p.2 = j + k
  · obtain ⟨p, hp, hpk⟩ := hex
    obtain ⟨hj, _, hfalse, _, _⟩ := h2 p hp
    rw [show p.2 - j = k by omega] at hfalse
    rw [hfalse] at hk
    exact absurd hk (by simp)
  · push_neg at hex
    rw [h3 k hex]
    exact hk

lemma getD_take {α : Type} : ∀ (l : List α) (n k : ℕ) (d : α), k < n →
    (l.take n).getD k d = l.getD k d := by
  intro l
  induction l with
  | nil => intro n k d _; simp
  | cons a l ih =>
    intro n k d hk
    cases n with
    | zero => omega
    | succ n =>
      cases k with
      | zero => simp
      | succ k =>
        simp only [List.take_succ_cons, List.getD_cons_succ]
        exact ih n k d (by omega)

lemma getD_drop {α : Type} : ∀ (l : List α) (n m : ℕ) (d : α),
    (l.drop n).getD m d = l.getD (n + m) d := by
  intro l
  induction l with
  | nil => intro n m d; simp
  | cons a l ih =>
    intro n m d
    cases n with
    | zero => simp
    | succ n =>
      simp only [List.drop_succ_cons]
      rw [ih n m d]
      have : n + 1 + m = (n + m) + 1 := by omega
      rw [this, List.getD_cons_succ]

lemma maxAreaPairFold_mem (init : Feature × ℕ) (l : List (Feature × ℕ)) :
    maxAreaPairFold init l = init ∨ maxAreaPairFold init l ∈ l := by
  unfold maxAreaPairFold
  exact foldl_max_mem (fun x => polygon_area x.1.hull) l init

lemma maxAreaPairFold_area_ge (init : Feature × ℕ) (l : List (Feature × ℕ)) :
    polygon_area init.1.hull ≤ polygon_area (maxAreaPairFold init l).1.hull
      ∧ ∀ x ∈ l, polygon_area x.1.hull ≤ polygon_area (maxAreaPairFold init l).1.hull := by
  unfold maxAreaPairFold
  exact foldl_max_ge (fun x => polygon_area x.1.hull) l init

lemma getD_splice_lt {α : Type} (l m : List α) (n k : ℕ) (d : α) (hn : n ≤ l.length)
    (hk : k < n) : (l.take n ++ m).getD k d = l.getD k d := by
  rw [List.getD_append _ _ _ _ (by rw [List.length_take]; omega), getD_take _ _ _ _ hk]

lemma getD_splice_ge {α : Type} (l m : List α) (n k : ℕ) (d : α) (hn : n ≤ l.length)
    (hk : n ≤ k) : (l.take n ++ m).getD k d = m.getD (k - n) d := by
  rw [List.getD_append_right _ _ _ _ (by rw [List.length_take]; omega), List.length_take]
  congr 1
  omega

lemma extendChainGo_spec (f1 : Feature) :
    ∀ (bins : List (List Feature)) (us : List (List Bool)) (nb : ℕ),
      us.length = bins.length →
      (∀ b, (us.getD b []).length = (bins.getD b []).length) →
      (extendChainGo f1 nb bins us).2.2.length = us.length
      ∧ (∀ b, ((extendChainGo f1 nb bins us).2.2.getD b []).length = (us.getD b []).length)
      ∧ (∀ p ∈ (extendChainGo f1 nb bins us).2.1,
           nb ≤ p.1 ∧ p.1 - nb < bins.length
           ∧ p.2 < (bins.getD (p.1 - nb) []).length
           ∧ ((us.getD (p.1 - nb) []).getD p.2 false = false)
           ∧ (((extendChainGo f1 nb bins us).2.2.getD (p.1 - nb) []).getD p.2 false = true))
      ∧ (∀ p ∈ (extendChainGo f1 nb bins us).1, p ∈ (extendChainGo f1 nb bins us).2.1)
      ∧ List.Pairwise (fun a b : ℕ × ℕ => a.1 < b.1) (extendChainGo f1 nb bins us).1
      ∧ (∀ b k, (∀ p ∈ (extendChainGo f1 nb bins us).2.1, p ≠ (nb + b, k)) →
           (((extendChainGo f1 nb bins us).2.2.getD b []).getD k false
             = (us.getD b []).getD k false)) := by
  intro bins
  induction bins with
  | nil =>
    intro us nb hlen hshape
    simp [extendChainGo]
  | cons bin bins' ih =>
    intro us nb hlen hshape
    cases us with
    | nil => simp at hlen
    | cons ub us' =>
      have hlen' : us'.length = bins'.length := by simpa using hlen
      have hshape' : ∀ b, (us'.getD b []).length = (bins'.getD b []).length := by
        intro b
        simpa using hshape (b + 1)
      have hub_len : ub.length = bin.length := by simpa using hshape 0
      have hfirst_le : boundedLeftSearch Feature.rt (f1.rt - RT_THRESHOLD) bin ≤ bin.length :=
        boundedLeftSearch_le_length _ _ bin
      have hfirst_le' : boundedLeftSearch Feature.rt (f1.rt - RT_THRESHOLD) bin ≤ ub.length := by
        omega
      have hscan_len :
          (ub.drop (boundedLeftSearch Feature.rt (f1.rt - RT_THRESHOLD) bin)).length
            = (bin.drop (boundedLeftSearch Feature.rt (f1.rt - RT_THRESHOLD) bin)).length := by
        simp [hub_len]
      obtain ⟨s1, s2, s3, s4⟩ := scanSimilarGo_spec f1
        (bin.drop (boundedLeftSearch Feature.rt (f1.rt - RT_THRESHOLD) bin))
        (ub.drop (boundedLeftSearch Feature.rt (f1.rt - RT_THRESHOLD) bin))
        (boundedLeftSearch Feature.rt (f1.rt - RT_THRESHOLD) bin) hscan_len
      have hub2_len :
          (ub.take (boundedLeftSearch Feature.rt (f1.rt - RT_THRESHOLD) bin)
              ++ (scanSimilarGo f1 (boundedLeftSearch Feature.rt (f1.rt - RT_THRESHOLD) bin)
                  (bin.drop (boundedLeftSearch Feature.rt (f1.rt - RT_THRESHOLD) bin))
                  (ub.drop (boundedLeftSearch Feature.rt (f1.rt - RT_THRESHOLD) bin))).2).length
            = ub.length := by
        rw [List.length_append, List.length_take, s1, List.length_drop]
        omega
      have hub2_lt : ∀ k, k < boundedLeftSearch Feature.rt (f1.rt - RT_THRESHOLD) bin →
          (ub.take (boundedLeftSearch Feature.rt (f1.rt - RT_THRESHOLD) bin)
              ++ (scanSimilarGo f1 (boundedLeftSearch Feature.rt (f1.rt - RT_THRESHOLD) bin)
                  (bin.drop (boundedLeftSearch Feature.rt (f1.rt - RT_THRESHOLD) bin))
                  (ub.drop (boundedLeftSearch Feature.rt (f1.rt - RT_THRESHOLD) bin))).2).getD k false
            = ub.getD k false := by
        intro k hk
        exact getD_splice_lt _ _ _ _ _ hfirst_le' hk
      have hub2_ge : ∀ k, boundedLeftSearch Feature.rt (f1.rt - RT_THRESHOLD) bin ≤ k →
          (ub.take (boundedLeftSearch Feature.rt (f1.rt - RT_THRESHOLD) bin)
              ++ (scanSimilarGo f1 (boundedLeftSearch Feature.rt (f1.rt - RT_THRESHOLD) bin)
                  (bin.drop (boundedLeftSearch Feature.rt (f1.rt - RT_THRESHOLD) bin))
                  (ub.drop (boundedLeftSearch Feature.rt (f1.rt - RT_THRESHOLD) bin))).2).getD k false
            = (scanSimilarGo f1 (boundedLeftSearch Feature.rt (f1.rt - RT_THRESHOLD) bin)
                  (bin.drop (boundedLeftSearch Feature.rt (f1.rt - RT_THRESHOLD) bin))
                  (ub.drop (boundedLeftSearch Feature.rt (f1.rt - RT_THRESHOLD) bin))).2.getD
                (k - boundedLeftSearch Feature.rt (f1.rt - RT_THRESHOLD) bin) false := by
        intro k hk
        exact getD_splice_ge _ _ _ _ _ hfirst_le' hk
      have hsim_abs : ∀ p ∈ (scanSimilarGo f1
            (boundedLeftSearch Feature.rt (f1.rt - RT_THRESHOLD) bin)
            (bin.drop (boundedLeftSearch Feature.rt (f1.rt - RT_THRESHOLD) bin))
            (ub.drop (boundedLeftSearch Feature.rt (f1.rt - RT_THRESHOLD) bin))).1,
          boundedLeftSearch Feature.rt (f1.rt - RT_THRESHOLD) bin ≤ p.2
          ∧ p.2 < bin.length
          ∧ ub.getD p.2 false = false
          ∧ (ub.take (boundedLeftSearch Feature.rt (f1.rt - RT_THRESHOLD) bin)
              ++ (scanSimilarGo f1 (boundedLeftSearch Feature.rt (f1.rt - RT_THRESHOLD) bin)
                  (bin.drop (boundedLeftSearch Feature.rt (f1.rt - RT_THRESHOLD) bin))
                  (ub.drop (boundedLeftSearch Feature.rt (f1.rt - RT_THRESHOLD) bin))).2).getD
                p.2 false = true := by
        intro p hp
        obtain ⟨hj, hlt, hfalse, htrue, _⟩ := s2 p hp
        have hplen : p.2 < bin.length := by
          rw [List.length_drop] at hlt
          omega
        refine ⟨hj, hplen, ?_, ?_⟩
        · have := getD_drop ub (boundedLeftSearch Feature.rt (f1.rt - RT_THRESHOLD) bin)
            (p.2 - boundedLeftSearch Feature.rt (f1.rt - RT_THRESHOLD) bin) false
          rw [show boundedLeftSearch Feature.rt (f1.rt - RT_THRESHOLD) bin
              + (p.2 - boundedLeftSearch Feature.rt (f1.rt - RT_THRESHOLD) bin) = p.2 by omega]
            at this
          rw [← this]
          exact hfalse
        · rw [hub2_ge p.2 hj]
          exact htrue
      rcases hcase : (scanSimilarGo f1 (boundedLeftSearch Feature.rt (f1.rt - RT_THRESHOLD) bin)
          (bin.drop (boundedLeftSearch Feature.rt (f1.rt - RT_THRESHOLD) bin))
          (ub.drop (boundedLeftSearch Feature.rt (f1.rt - RT_THRESHOLD) bin))).1
        with _ | ⟨s0, srest⟩
      · have hstep : extendChainGo f1 nb (bin :: bins') (ub :: us')
            = ([], [],
                (ub.take (boundedLeftSearch Feature.rt (f1.rt - RT_THRESHOLD) bin)
                  ++ (scanSimilarGo f1 (boundedLeftSearch Feature.rt (f1.rt - RT_THRESHOLD) bin)
                      (bin.drop (boundedLeftSearch Feature.rt (f1.rt - RT_THRESHOLD) bin))
                      (ub.drop (boundedLeftSearch Feature.rt (f1.rt - RT_THRESHOLD) bin))).2)
                  :: us') := by
          simp only [extendChainGo, hcase]
        rw [hstep]
        refine ⟨by simp, ?_, by simp, by simp, by simp, ?_⟩
        · intro b
          cases b with
          | zero => simpa using hub2_len
          | succ b => simp
        · intro b k _
          cases b with
          | zero =>
            simp only [List.getD_cons_zero]
            by_cases hk : k < boundedLeftSearch Feature.rt (f1.rt - RT_THRESHOLD) bin
            · exact hub2_lt k hk
            · rw [hub2_ge k (by omega)]
              rw [s3 _ (by rw [hcase]; simp)]
              have := getD_drop ub (boundedLeftSearch Feature.rt (f1.rt - RT_THRESHOLD) bin)
                (k - boundedLeftSearch Feature.rt (f1.rt - RT_THRESHOLD) bin) false
              rw [show boundedLeftSearch Feature.rt (f1.rt - RT_THRESHOLD) bin
                  + (k - boundedLeftSearch Feature.rt (f1.rt - RT_THRESHOLD) bin) = k by omega]
                at this
              exact this
          | succ b => simp
      · obtain ⟨e1, e2, e3, e4, e5, e6⟩ := ih us' (nb + 1) hlen' hshape'
        have hstep : extendChainGo f1 nb (bin :: bins') (ub :: us')
            = ((nb, (maxAreaPairFold s0 srest).2) :: (extendChainGo f1 (nb + 1) bins' us').1,
                ((s0 :: srest).map (fun x => (nb, x.2)))
                  ++ (extendChainGo f1 (nb + 1) bins' us').2.1,
                (ub.take (boundedLeftSearch Feature.rt (f1.rt - RT_THRESHOLD) bin)
                  ++ (scanSimilarGo f1 (boundedLeftSearch Feature.rt (f1.rt - RT_THRESHOLD) bin)
                      (bin.drop (boundedLeftSearch Feature.rt (f1.rt - RT_THRESHOLD) bin))
                      (ub.drop (boundedLeftSearch Feature.rt (f1.rt - RT_THRESHOLD) bin))).2)
                  :: (extendChainGo f1 (nb + 1) bins' us').2.2) := by
          simp only [extendChainGo, hcase]
        rw [hstep]
        have hmemr1 : ∀ x ∈ s0 :: srest, x ∈ (scanSimilarGo f1
            (boundedLeftSearch Feature.rt (f1.rt - RT_THRESHOLD) bin)
            (bin.drop (boundedLeftSearch Feature.rt (f1.rt - RT_THRESHOLD) bin))
            (ub.drop (boundedLeftSearch Feature.rt (f1.rt - RT_THRESHOLD) bin))).1 := by
          intro x hx
          rw [hcase]
          exact hx
        refine ⟨by simpa using e1, ?_, ?_, ?_, ?_, ?_⟩
        · intro b
          cases b with
          | zero => simpa using hub2_len
          | succ b => simpa using e2 b
        · intro p hp
          rcases List.mem_append.mp hp with hp | hp
          · obtain ⟨x, hx, hxp⟩ := List.mem_map.mp hp
            obtain ⟨hxf, hxlen, hxfalse, hxtrue⟩ := hsim_abs x (hmemr1 x hx)
            subst hxp
            refine ⟨le_refl nb, by simp, ?_, ?_, ?_⟩
            · simpa using hxlen
            · simpa using hxfalse
            · simpa using hxtrue
          · obtain ⟨hnb, hblen, hplen, hpfalse, hptrue⟩ := e3 p hp
            have hsub : p.1 - nb = (p.1 - (nb + 1)) + 1 := by omega
            rw [hsub]
            refine ⟨by omega, by simp only [List.length_cons]; omega, ?_, ?_, ?_⟩
            · simpa using hplen
            · simpa using hpfalse
            · simpa using hptrue
        · intro p hp
          rcases List.mem_cons.mp hp with hp | hp
          · subst hp
            refine List.mem_append.mpr (Or.inl ?_)
            refine List.mem_map.mpr ⟨maxAreaPairFold s0 srest, ?_, rfl⟩
            rcases maxAreaPairFold_mem s0 srest with h | h
            · rw [h]; exact List.mem_cons_self _ _
            · exact List.mem_cons_of_mem _ h
          · exact List.mem_append.mpr (Or.inr (e4 p hp))
        · rw [List.pairwise_cons]
          refine ⟨?_, e5⟩
          intro q hq
          have := (e3 q (e4 q hq)).1
          omega
        · intro b k hno
          cases b with
          | zero =>
            simp only [List.getD_cons_zero]
            by_cases hk : k < boundedLeftSearch Feature.rt (f1.rt - RT_THRESHOLD) bin
            · exact hub2_lt k hk
            · rw [hub2_ge k (by omega)]
              rw [s3 _ ?_]
              · have := getD_drop ub (boundedLeftSearch Feature.rt (f1.rt - RT_THRESHOLD) bin)
                  (k - boundedLeftSearch Feature.rt (f1.rt - RT_THRESHOLD) bin) false
                rw [show boundedLeftSearch Feature.rt (f1.rt - RT_THRESHOLD) bin
                    + (k - boundedLeftSearch Feature.rt (f1.rt - RT_THRESHOLD) bin) = k by omega]
                  at this
                exact this
              · intro p hp
                intro hpk
                have hpmem : (nb, p.2) ∈ ((s0 :: srest).map (fun x => (nb, x.2)))
                    ++ (extendChainGo f1 (nb + 1) bins' us').2.1 := by
                  refine List.mem_append.mpr (Or.inl ?_)
                  refine List.mem_map.mpr ⟨p, ?_, rfl⟩
                  rw [← hcase]
                  exact hp
                have := hno (nb, p.2) hpmem
                apply this
                have : p.2 = k := by omega
                rw [this]
                simp
          | succ b =>
            simp only [List.getD_cons_succ]
            refine e6 b k ?_
            intro p hp
            have := hno p (List.mem_append.mpr (Or.inr hp))
            intro hpe
            apply this
            rw [hpe]
            congr 1
            omega

/-- Validity and flag bookkeeping of an emitted chain record, relative to
the bins and the current `used` flags: valid head, consumed positions in
strictly later bins with their flags set, links among the consumed, and
strictly increasing bins along the chain. -/
def RecordGood (bins : List (List Feature)) (used : List (List Bool)) (r : ChainRec) : Prop :=
  r.head.1 < bins.length
  ∧ r.head.2 < (bins.getD r.head.1 []).length
  ∧ (∀ p ∈ r.consumed, r.head.1 < p.1 ∧ p.1 < bins.length
      ∧ p.2 < (bins.getD p.1 []).length ∧ flagAt used p = true)
  ∧ (∀ p ∈ r.links, p ∈ r.consumed)
  ∧ List.Pairwise (fun a b : ℕ × ℕ => a.1 < b.1) (r.head :: r.links)

/-- Mutual separation of two chain records (in emission order): neither
head was consumed by the other chain, the heads differ, and the consumed
sets are disjoint. -/
def RecordsSep (r1 r2 : ChainRec) : Prop :=
  r2.head ∉ r1.consumed ∧ r1.head ∉ r2.consumed ∧ r1.head ≠ r2.head
  ∧ ∀ p ∈ r1.consumed, p ∉ r2.consumed

/-- The representative paired with a chain: drawn from the chain members
(head or a link) together with its bin, and of maximal intensity among
the chain members. -/
def RepOk (bins : List (List Feature)) (rep : Feature × ℕ) (r : ChainRec) : Prop :=
  (∃ p ∈ r.head :: r.links, rep = (lookAt bins p, p.1))
  ∧ ∀ p ∈ r.head :: r.links, (lookAt bins p).intensity ≤ rep.1.intensity

/-- Loop invariant of the `match_features_pass` double loop, at outer bin
`B` and inner index `I`. -/
def PassInv (bins : List (List Feature)) (B I : ℕ) (st : PassState) : Prop :=
  st.used.length = bins.length
  ∧ (∀ b, (st.used.getD b []).length = (bins.getD b []).length)
  ∧ (∀ r ∈ st.chains, RecordGood bins st.used r)
  ∧ (∀ r ∈ st.chains, r.head.1 < B ∨ (r.head.1 = B ∧ r.head.2 < I))
  ∧ st.chains.Pairwise RecordsSep
  ∧ List.Forall₂ (RepOk bins) st.matched st.chains

lemma foldl_maxInt_spec (bins : List (List Feature)) (l : List (ℕ × ℕ)) :
    ∀ init : Feature × ℕ,
      ((l.foldl (fun best p =>
          if best.1.intensity < (lookAt bins p).intensity then (lookAt bins p, p.1) else best)
          init) = init
        ∨ ∃ p ∈ l, (l.foldl (fun best p =>
            if best.1.intensity < (lookAt bins p).intensity then (lookAt bins p, p.1) else best)
            init) = (lookAt bins p, p.1))
      ∧ init.1.intensity ≤ (l.foldl (fun best p =>
          if best.1.intensity < (lookAt bins p).intensity then (lookAt bins p, p.1) else best)
          init).1.intensity
      ∧ ∀ p ∈ l, (lookAt bins p).intensity ≤ (l.foldl (fun best p =>
          if best.1.intensity < (lookAt bins p).intensity then (lookAt bins p, p.1) else best)
          init).1.intensity := by
  induction l with
  | nil => intro init; simp
  | cons a l ih =>
    intro init
    simp only [List.foldl_cons]
    by_cases h : init.1.intensity < (lookAt bins a).intensity
    · rw [if_pos h]
      obtain ⟨h1, h2, h3⟩ := ih (lookAt bins a, a.1)
      refine ⟨?_, le_trans h.le h2, ?_⟩
      · rcases h1 with h1 | ⟨p, hp, hp2⟩
        · exact Or.inr ⟨a, List.mem_cons_self _ _, h1⟩
        · exact Or.inr ⟨p, List.mem_cons_of_mem _ hp, hp2⟩
      · intro p hp
        rcases List.mem_cons.mp hp with hp | hp
        · rw [hp]
          exact h2
        · exact h3 p hp
    · rw [if_neg h]
      obtain ⟨h1, h2, h3⟩ := ih init
      refine ⟨?_, h2, ?_⟩
      · rcases h1 with h1 | ⟨p, hp, hp2⟩
        · exact Or.inl h1
        · exact Or.inr ⟨p, List.mem_cons_of_mem _ hp, hp2⟩
      · intro p hp
        rcases List.mem_cons.mp hp with hp | hp
        · rw [hp]
          exact le_trans (not_lt.mp h) h2
        · exact h3 p hp

lemma getD_map_replicate (bins : List (List Feature)) (b : ℕ) :
    ((bins.map (fun x => List.replicate x.length (false : Bool))).getD b []).length
      = (bins.getD b []).length := by
  by_cases hb : b < bins.length
  · rw [List.getD_eq_getElem _ _ (by simpa using hb), List.getD_eq_getElem _ _ hb,
      List.getElem_map]
    simp
  · rw [List.getD_eq_default _ _ (by simpa using hb), List.getD_eq_default _ _ (by omega)]
    rfl

lemma processHead_spec (bins : List (List Feature)) (used : List (List Bool)) (B I : ℕ)
    (hlen : used.length = bins.length)
    (hshape : ∀ b, (used.getD b []).length = (bins.getD b []).length)
    (hB : B < bins.length) (hI : I < (bins.getD B []).length) :
    (processHead bins used B I).2.2.length = used.length
    ∧ (∀ b, ((processHead bins used B I).2.2.getD b []).length = (used.getD b []).length)
    ∧ (∀ p : ℕ × ℕ, flagAt used p = true → flagAt (processHead bins used B I).2.2 p = true)
    ∧ RecordGood bins (processHead bins used B I).2.2 (processHead bins used B I).2.1
    ∧ (∀ p ∈ (processHead bins used B I).2.1.consumed, flagAt used p = false ∧ B < p.1)
    ∧ (processHead bins used B I).2.1.head = (B, I)
    ∧ RepOk bins (processHead bins used B I).1 (processHead bins used B I).2.1 := by
  have hdlen : (used.drop (B + 1)).length = (bins.drop (B + 1)).length := by
    simp [hlen]
  have hdshape : ∀ b, ((used.drop (B + 1)).getD b []).length
      = ((bins.drop (B + 1)).getD b []).length := by
    intro b
    rw [getD_drop, getD_drop]
    exact hshape (B + 1 + b)
  obtain ⟨e1, e2, e3, e4, e5, e6⟩ := extendChainGo_spec (lookAt bins (B, I))
    (bins.drop (B + 1)) (used.drop (B + 1)) (B + 1) hdlen hdshape
  have hBu : B + 1 ≤ used.length := by omega
  simp only [processHead]
  set E := extendChainGo (lookAt bins (B, I)) (B + 1) (bins.drop (B + 1)) (used.drop (B + 1))
    with hE
  have hflag_low : ∀ p : ℕ × ℕ, p.1 ≤ B →
      flagAt (used.take (B + 1) ++ E.2.2) p = flagAt used p := by
    intro p hp
    unfold flagAt
    rw [getD_splice_lt _ _ _ _ _ hBu (by omega)]
  have hflag_high : ∀ p : ℕ × ℕ, B < p.1 →
      flagAt (used.take (B + 1) ++ E.2.2) p
        = (E.2.2.getD (p.1 - (B + 1)) []).getD p.2 false := by
    intro p hp
    unfold flagAt
    rw [getD_splice_ge _ _ _ _ _ hBu (by omega)]
  have holdflag : ∀ p : ℕ × ℕ, B < p.1 →
      flagAt used p = ((used.drop (B + 1)).getD (p.1 - (B + 1)) []).getD p.2 false := by
    intro p hp
    unfold flagAt
    rw [getD_drop, show B + 1 + (p.1 - (B + 1)) = p.1 by omega]
  refine ⟨?_, ?_, ?_, ?_, ?_, trivial, ?_⟩
  · rw [List.length_append, List.length_take, e1, List.length_drop]
    omega
  · intro b
    by_cases hb : b ≤ B
    · rw [getD_splice_lt _ _ _ _ _ hBu (by omega)]
    · rw [getD_splice_ge _ _ _ _ _ hBu (by omega), e2 (b - (B + 1)), getD_drop,
        show B + 1 + (b - (B + 1)) = b by omega]
  · intro p hp
    by_cases hpb : p.1 ≤ B
    · rw [hflag_low p hpb]
      exact hp
    · rw [hflag_high p (by omega)]
      by_cases hpc : p ∈ E.2.1
      · exact (e3 p hpc).2.2.2.2
      · rw [e6 (p.1 - (B + 1)) p.2 (by
          intro q hq hqe
          apply hpc
          rw [show ((B + 1) + (p.1 - (B + 1)), p.2) = p by
            rw [show (B + 1) + (p.1 - (B + 1)) = p.1 by omega]] at hqe
          rw [← hqe] at hp ⊢
          exact hq)]
        rw [← holdflag p (by omega)]
        exact hp
  · refine ⟨hB, hI, ?_, e4, ?_⟩
    · intro p hp
      obtain ⟨hp1, hp2, hp3, _, hp5⟩ := e3 p hp
      have hpbin : p.1 < bins.length := by
        rw [List.length_drop] at hp2
        omega
      refine ⟨show B < p.1 by omega, hpbin, ?_, ?_⟩
      · rw [← show B + 1 + (p.1 - (B + 1)) = p.1 by omega, ← getD_drop]
        exact hp3
      · rw [hflag_high p (by omega)]
        exact hp5
    · rw [List.pairwise_cons]
      refine ⟨?_, e5⟩
      intro q hq
      have := (e3 q (e4 q hq)).1
      show B < q.1
      omega
  · intro p hp
    obtain ⟨hp1, hp2, hp3, hp4, _⟩ := e3 p hp
    refine ⟨?_, by omega⟩
    rw [holdflag p (by omega)]
    exact hp4
  · obtain ⟨h1, h2, h3⟩ := foldl_maxInt_spec bins ((B, I) :: E.1) (lookAt bins (B, I), B)
    constructor
    · rcases h1 with h1 | ⟨p, hp, hp2⟩
      · exact ⟨(B, I), List.mem_cons_self _ _, by rw [h1]⟩
      · exact ⟨p, hp, hp2⟩
    · exact h3

lemma RecordGood_mono (bins : List (List Feature)) (u u' : List (List Bool)) (r : ChainRec)
    (hmono : ∀ p : ℕ × ℕ, flagAt u p = true → flagAt u' p = true)
    (hr : RecordGood bins u r) : RecordGood bins u' r := by
  obtain ⟨a, b, c, d, e⟩ := hr
  refine ⟨a, b, ?_, d, e⟩
  intro p hp
  obtain ⟨x, y, z, w⟩ := c p hp
  exact ⟨x, y, z, hmono p w⟩

lemma passInnerStep_inv (bins : List (List Feature)) (B : ℕ) (hB : B < bins.length)
    (st : PassState) (i : ℕ) (hi : i < (bins.getD B []).length)
    (hinv : PassInv bins B i st) : PassInv bins B (i + 1) (passInnerStep bins B st i) := by
  obtain ⟨h1, h2, h3, h4, h5, h6⟩ := hinv
  unfold passInnerStep
  by_cases hflag : (st.used.getD B []).getD i false = true
  · rw [if_pos hflag]
    refine ⟨h1, h2, h3, ?_, h5, h6⟩
    intro r hr
    rcases h4 r hr with h | ⟨ha, hb⟩
    · exact Or.inl h
    · exact Or.inr ⟨ha, by omega⟩
  · rw [if_neg hflag]
    have hflag' : flagAt st.used (B, i) = false := by
      unfold flagAt
      simpa using hflag
    obtain ⟨p1, p2, p3, p4, p5, p6, p7⟩ := processHead_spec bins st.used B i h1 h2 hB hi
    refine ⟨by rw [p1]; exact h1, fun b => (p2 b).trans (h2 b), ?_, ?_, ?_, ?_⟩
    · intro r hr
      rcases List.mem_append.mp hr with hr | hr
      · exact RecordGood_mono bins st.used _ r p3 (h3 r hr)
      · rw [List.mem_singleton.mp hr]
        exact p4
    · intro r hr
      rcases List.mem_append.mp hr with hr | hr
      · rcases h4 r hr with h | ⟨ha, hb⟩
        · exact Or.inl h
        · exact Or.inr ⟨ha, by omega⟩
      · rw [List.mem_singleton.mp hr, p6]
        exact Or.inr ⟨rfl, by omega⟩
    · rw [List.pairwise_append]
      refine ⟨h5, by simp, ?_⟩
      intro r1 hr1 r2 hr2
      rw [List.mem_singleton.mp hr2]
      obtain ⟨g1, g2, g3, g4, g5⟩ := h3 r1 hr1
      refine ⟨?_, ?_, ?_, ?_⟩
      · rw [p6]
        intro hc
        have := (g3 (B, i) hc).2.2.2
        rw [hflag'] at this
        exact absurd this (by simp)
      · intro hc
        have := (p5 r1.head hc).2
        rcases h4 r1 hr1 with h | ⟨ha, _⟩
        · omega
        · omega
      · rw [p6]
        intro hc
        rcases h4 r1 hr1 with h | ⟨ha, hb⟩
        · rw [hc] at h
          exact absurd h (by simp)
        · rw [hc] at hb
          exact absurd hb (by simp)
      · intro p hp hc
        have hpt := (g3 p hp).2.2.2
        have hpf := (p5 p hc).1
        rw [hpf] at hpt
        exact absurd hpt (by simp)
    · exact List.rel_append h6 (List.Forall₂.cons p7 List.Forall₂.nil)

lemma passInner_fold_inv (bins : List (List Feature)) (B : ℕ) (hB : B < bins.length) :
    ∀ (n : ℕ), n ≤ (bins.getD B []).length → ∀ (st : PassState),
      PassInv bins B 0 st →
      PassInv bins B n ((List.range n).foldl (passInnerStep bins B) st) := by
  intro n
  induction n with
  | zero => intro _ st h; simpa using h
  | succ n ih =>
    intro hn st h
    rw [List.range_succ, List.foldl_append]
    simp only [List.foldl_cons, List.foldl_nil]
    exact passInnerStep_inv bins B hB _ n (by omega) (ih (by omega) st h)

lemma passOuterStep_inv (bins : List (List Feature)) (B : ℕ) (hB : B < bins.length)
    (st : PassState) (h : PassInv bins B 0 st) :
    PassInv bins (B + 1) 0 (passOuterStep bins st B) := by
  unfold passOuterStep
  obtain ⟨h1, h2, h3, h4, h5, h6⟩ :=
    passInner_fold_inv bins B hB (bins.getD B []).length (le_refl _) st h
  refine ⟨h1, h2, h3, ?_, h5, h6⟩
  intro r hr
  rcases h4 r hr with h | ⟨ha, _⟩
  · exact Or.inl (by omega)
  · exact Or.inl (by omega)

lemma passOuter_fold_inv (bins : List (List Feature)) :
    ∀ (m : ℕ), m ≤ bins.length →
      PassInv bins m 0 ((List.range m).foldl (passOuterStep bins)
        ⟨bins.map (fun b => List.replicate b.length false), [], []⟩) := by
  intro m
  induction m with
  | zero =>
    intro _
    refine ⟨by simp, ?_, by simp, by simp, by simp, ?_⟩
    · intro b
      exact getD_map_replicate bins b
    · exact List.Forall₂.nil
  | succ m ih =>
    intro hm
    rw [List.range_succ, List.foldl_append]
    simp only [List.foldl_cons, List.foldl_nil]
    exact passOuterStep_inv bins m (by omega) _ (ih (by omega))

lemma matchPassCore_inv (bins : List (List Feature)) :
    PassInv bins bins.length 0 (matchPassCore bins) := by
  unfold matchPassCore
  exact passOuter_fold_inv bins bins.length (le_refl _)

lemma forall₂_mem_left {α β : Type} {R : α → β → Prop} :
    ∀ {l1 : List α} {l2 : List β}, List.Forall₂ R l1 l2 → ∀ a ∈ l1, ∃ b ∈ l2, R a b := by
  intro l1 l2 h
  induction h with
  | nil => intro a ha; simp at ha
  | cons hr _ ih =>
    intro a ha
    rcases List.mem_cons.mp ha with ha | ha
    · exact ⟨_, List.mem_cons_self _ _, ha ▸ hr⟩
    · obtain ⟨b, hb, hrb⟩ := ih a ha
      exact ⟨b, List.mem_cons_of_mem _ hb, hrb⟩

/-- C3: `match_features_pass` emits exactly one representative per chain
(`Forall₂` pairs each output entry with its chain record): the
representative is the maximum-intensity feature among the chain head and
its links, paired with the bin it was drawn from; and the chains are
mutually disjoint — in particular a feature consumed by another feature's
chain never starts or joins a second chain, so no two representatives
come from the same chain. -/
theorem claim_C3 (features : List (List Feature)) :
    match_features_pass features = (matchPassCore (features.map sortFeaturesByRt)).matched
    ∧ List.Forall₂ (RepOk (features.map sortFeaturesByRt))
        (matchPassCore (features.map sortFeaturesByRt)).matched
        (matchPassCore (features.map sortFeaturesByRt)).chains
    ∧ (matchPassCore (features.map sortFeaturesByRt)).chains.Pairwise
        (fun r1 r2 => (∀ p ∈ r1.head :: r1.links, p ∉ r2.head :: r2.links)
          ∧ r2.head ∉ r1.consumed ∧ r1.head ∉ r2.consumed) := by
  obtain ⟨h1, h2, h3, h4, h5, h6⟩ := matchPassCore_inv (features.map sortFeaturesByRt)
  refine ⟨rfl, h6, ?_⟩
  refine List.Pairwise.imp_of_mem ?_ h5
  intro r1 r2 hr1 hr2 hsep
  obtain ⟨s1, s2, s3, s4⟩ := hsep
  obtain ⟨g11, g12, g13, g14, g15⟩ := h3 r1 hr1
  obtain ⟨g21, g22, g23, g24, g25⟩ := h3 r2 hr2
  refine ⟨?_, s1, s2⟩
  intro p hp hmem2
  rcases List.mem_cons.mp hp with hp | hp
  · rcases List.mem_cons.mp hmem2 with hc | hc
    · exact s3 (by rw [← hp, hc])
    · exact s2 (by rw [← hp]; exact g24 p hc)
  · have hpc := g14 p hp
    rcases List.mem_cons.mp hmem2 with hc | hc
    · exact s1 (by rw [← hc]; exact hpc)
    · exact s4 p hpc (g24 p hc)

lemma match_features_pass_mem (features : List (List Feature)) :
    ∀ q ∈ match_features_pass features, ∃ bin ∈ features, q.1 ∈ bin := by
  intro q hq
  obtain ⟨h1, h2, h3, h4, h5, h6⟩ := matchPassCore_inv (features.map sortFeaturesByRt)
  obtain ⟨rec, hrec, hrep⟩ := forall₂_mem_left h6 q hq
  obtain ⟨⟨p, hp, hpe⟩, _⟩ := hrep
  obtain ⟨g1, g2, g3, g4, g5⟩ := h3 rec hrec
  have hvalid : p.1 < (features.map sortFeaturesByRt).length
      ∧ p.2 < ((features.map sortFeaturesByRt).getD p.1 []).length := by
    rcases List.mem_cons.mp hp with hp | hp
    · rw [hp]
      exact ⟨g1, g2⟩
    · have := g3 p (g4 p hp)
      exact ⟨this.2.1, this.2.2.1⟩
  have hmem1 : lookAt (features.map sortFeaturesByRt) p
      ∈ (features.map sortFeaturesByRt).getD p.1 [] := by
    unfold lookAt
    exact getD_mem_of_lt _ _ _ hvalid.2
  have hmem2 : (features.map sortFeaturesByRt).getD p.1 [] ∈ features.map sortFeaturesByRt :=
    getD_mem_of_lt _ _ _ hvalid.1
  obtain ⟨bin, hbin, hbineq⟩ := List.mem_map.mp hmem2
  refine ⟨bin, hbin, ?_⟩
  rw [hpe]
  have hsorted : lookAt (features.map sortFeaturesByRt) p ∈ sortFeaturesByRt bin := by
    rw [hbineq]
    exact hmem1
  rw [sortFeaturesByRt] at hsorted
  exact (List.perm_insertionSort _ bin).subset hsorted

/-- The window scan of cross-pass matching step 1: over the RT-sorted
pass-1 representative list, skip consumed entries, break once an
unconsumed entry lies past the RT window, and collect-and-mark the
entries that are similar and bin-adjacent (`bin1 == bin2 or
bin1 + 1 == bin2`). -/
def scanPass2Go (f1 : Feature) (bin1 : ℕ) : List (Feature × ℕ) → List Bool →
    List (Feature × ℕ) × List Bool
  | [], us => ([], us)
  | _ :: _, [] => ([], [])
  | fb2 :: rest, u :: us =>
    if u then
      let r := scanPass2Go f1 bin1 rest us
      (r.1, u :: r.2)
    else if f1.rt + RT_THRESHOLD < fb2.1.rt then ([], u :: us)
    else if similar_features f1 fb2.1 RT_THRESHOLD MZ_THRESHOLD
        ∧ (bin1 = fb2.2 ∨ bin1 + 1 = fb2.2) then
      let r := scanPass2Go f1 bin1 rest us
      (fb2 :: r.1, true :: r.2)
    else
      let r := scanPass2Go f1 bin1 rest us
      (r.1, u :: r.2)

/-- One iteration of step 1 of `match_features` for one pass-0
representative `(f1, bin1)`: find and consume the similar bin-adjacent
pass-1 candidates in the RT window, then keep the max-area entry among
`f1` and the candidates, tagged with the average IM of the bin it came
from (`im_scan_nums[0][bin1]` if `f1` wins, `im_scan_nums[1][bin2]` for a
candidate). -/
def step1Iter (im0 im1 : List ℚ) (pass2s : List (Feature × ℕ))
    (st : List Bool × List (Feature × ℚ)) (fb1 : Feature × ℕ) :
    List Bool × List (Feature × ℚ) :=
  let first := boundedLeftSearch (fun x : Feature × ℕ => x.1.rt) (fb1.1.rt - RT_THRESHOLD) pass2s
  let r := scanPass2Go fb1.1 fb1.2 (pass2s.drop first) (st.1.drop first)
  let best := r.1.foldl
    (fun best fb2 =>
      if polygon_area best.1.hull < polygon_area fb2.1.hull then (fb2.1, im1.getD fb2.2 0)
      else best)
    (fb1.1, im0.getD fb1.2 0)
  (st.1.take first ++ r.2, st.2 ++ [best])

/-- Step 1 of `match_features`: fold over the pass-0 representatives with
initially all-unconsumed pass-1 flags. -/
def step1 (im0 im1 : List ℚ) (pass1 pass2s : List (Feature × ℕ)) :
    List Bool × List (Feature × ℚ) :=
  pass1.foldl (step1Iter im0 im1 pass2s) (List.replicate pass2s.length false, [])

/-- The RT-sorted pass-1 representative list (`pass2.sort(key=RT)`). -/
def pass2Sorted (features2 : List (List Feature)) : List (Feature × ℕ) :=
  (match_features_pass features2).insertionSort (fun a b => a.1.rt ≤ b.1.rt)

/-- Steps 1 and 2 of `match_features`: the step-1 outputs followed by the
pass-1 representatives never consumed in step 1, tagged with their own
bin's average IM. -/
def step2FeatureBins (im0 im1 : List ℚ) (features1 features2 : List (List Feature)) :
    List (Feature × ℚ) :=
  (step1 im0 im1 (match_features_pass features1) (pass2Sorted features2)).2
    ++ (List.range (pass2Sorted features2).length).filterMap (fun j =>
      if (step1 im0 im1 (match_features_pass features1) (pass2Sorted features2)).1.getD j false
      then none
      else some (((pass2Sorted features2).getD j default).1,
        im1.getD ((pass2Sorted features2).getD j default).2 0))

/-- The cleanup scan of `match_features`: collect the unconsumed
RT-window entries that are similar and additionally carry exactly the
same assigned IM value, marking them consumed. -/
def scanCleanGo (fb1 : Feature × ℚ) : List (Feature × ℚ) → List Bool →
    List (Feature × ℚ) × List Bool
  | [], us => ([], us)
  | _ :: _, [] => ([], [])
  | fb2 :: rest, u :: us =>
    if u then
      let r := scanCleanGo fb1 rest us
      (r.1, u :: r.2)
    else if fb1.1.rt + RT_THRESHOLD < fb2.1.rt then ([], u :: us)
    else if similar_features fb1.1 fb2.1 RT_THRESHOLD MZ_THRESHOLD ∧ fb1.2 = fb2.2 then
      let r := scanCleanGo fb1 rest us
      (fb2 :: r.1, true :: r.2)
    else
      let r := scanCleanGo fb1 rest us
      (r.1, u :: r.2)

/-- State of the cleanup sweep: the consumption flags, the `cleaned`
feature list, the `clean_bins` (feature, IM) list, and the instrumented
clusters (anchor first). -/
structure CleanState where
  used : List Bool
  cleaned : List Feature
  clean_bins : List (Feature × ℚ)
  clusters : List (List (Feature × ℚ))

/-- One iteration of the cleanup sweep of `match_features` for anchor
index `i`: skip consumed entries; otherwise mark the anchor, collect its
cluster, and keep the max-area member. -/
def cleanStep (fbs : List (Feature × ℚ)) (st : CleanState) (i : ℕ) : CleanState :=
  if st.used.getD i false then st
  else
    let used1 := st.used.set i true
    let fb1 := fbs.getD i default
    let first := boundedLeftSearch (fun x : Feature × ℚ => x.1.rt) (fb1.1.rt - RT_THRESHOLD) fbs
    let r := scanCleanGo fb1 (fbs.drop first) (used1.drop first)
    let best := r.1.foldl
      (fun best fb2 => if polygon_area best.1.hull < polygon_area fb2.1.hull then fb2 else best)
      fb1
    ⟨used1.take first ++ r.2, st.cleaned ++ [best.1], st.clean_bins ++ [best],
      st.clusters ++ [fb1 :: r.1]⟩

/-- The cleanup sweep (step 3) of `match_features` over the RT-sorted
combined list, starting from all-unconsumed flags. -/
def cleanupCore (fbs : List (Feature × ℚ)) : CleanState :=
  (List.range fbs.length).foldl (cleanStep fbs) ⟨List.replicate fbs.length false, [], [], []⟩

/-- The RT-sorted combined (feature, IM) list fed to the cleanup sweep
(`feature_bins.sort(key=RT)`). -/
def fbsSorted (im0 im1 : List ℚ) (features1 features2 : List (List Feature)) :
    List (Feature × ℚ) :=
  (step2FeatureBins im0 im1 features1 features2).insertionSort (fun a b => a.1.rt ≤ b.1.rt)

/-- `match_features`: cross-pass reconciliation — chain-match each pass,
match pass-0 representatives against bin-adjacent pass-1 representatives,
keep never-matched pass-1 representatives, and run the cleanup sweep.
Returns the cleaned feature map and the (feature, IM) list. -/
def match_features (im0 im1 : List ℚ) (features1 features2 : List (List Feature)) :
    List Feature × List (Feature × ℚ) :=
  ((cleanupCore (fbsSorted im0 im1 features1 features2)).cleaned,
    (cleanupCore (fbsSorted im0 im1 features1 features2)).clean_bins)

/-- `find_features`: per pass and bin, the externally detected feature
map is deduplicated with `match_features_internal`; the pass sizes are
`nb = [num_bins, 0 if num_bins == 1 else num_bins + 1]`. The external
detector (with optional filtering and peak picking) is abstracted as the
function `detected`. -/
def find_features_model (num_bins : ℕ) (detected : ℕ → ℕ → List Feature) :
    List (List Feature) × List (List Feature) :=
  ((List.range num_bins).map (fun i => match_features_internal (detected 0 i)),
    (List.range (if num_bins = 1 then 0 else num_bins + 1)).map
      (fun i => match_features_internal (detected 1 i)))

/-- The tail of `run` after binning: find the per-bin features, then
either return the single pass-0 bin's feature map directly with no IM
output (`num_bins == 1`), or run the cross-pass matching and also return
the per-feature IM list. -/
def run_model (num_bins : ℕ) (im0 im1 : List ℚ) (detected : ℕ → ℕ → List Feature) :
    List Feature × Option (List (Feature × ℚ)) :=
  if num_bins = 1 then ((find_features_model num_bins detected).1.getD 0 [], none)
  else
    ((match_features im0 im1 (find_features_model num_bins detected).1
        (find_features_model num_bins detected).2).1,
      some (match_features im0 im1 (find_features_model num_bins detected).1
        (find_features_model num_bins detected).2).2)

/-- C6: with `num_bins = 1` the run returns exactly the single pass-0
bin's intra-bin-deduplicated feature set, attaches no IM value to the
output (`none` in place of the feature/IM list), and pass 1 holds no bins
at all, so neither cross-bin nor cross-pass matching contributes. -/
theorem claim_C6 (im0 im1 : List ℚ) (detected : ℕ → ℕ → List Feature) :
    run_model 1 im0 im1 detected = (match_features_internal (detected 0 0), none)
    ∧ (find_features_model 1 detected).2 = [] := by
  constructor
  · unfold run_model find_features_model
    simp
  · unfold find_features_model
    simp

lemma getD_map_range {α : Type} (f : ℕ → α) (n k : ℕ) (d : α) (hk : k < n) :
    ((List.range n).map f).getD k d = f k := by
  rw [List.getD_eq_getElem _ _ (by simpa using hk)]
  simp

lemma map_getD_range_self {α : Type} (l : List α) (d : α) :
    (List.range l.length).map (fun k => l.getD k d) = l := by
  apply List.ext_getElem
  · simp
  · intro i h1 h2
    rw [List.getElem_map, List.getElem_range, List.getD_eq_getElem _ _ h2]

lemma not_similar_rt_high (f1 f2 : Feature) (h : f1.rt + RT_THRESHOLD < f2.rt) :
    ¬ similar_features f1 f2 RT_THRESHOLD MZ_THRESHOLD := by
  intro hs
  rw [similar_features, abs_le] at hs
  obtain ⟨⟨h1, _⟩, _⟩ := hs
  linarith

lemma not_similar_rt_low (f1 f2 : Feature) (h : f2.rt < f1.rt - RT_THRESHOLD) :
    ¬ similar_features f1 f2 RT_THRESHOLD MZ_THRESHOLD := by
  intro hs
  rw [similar_features, abs_le] at hs
  obtain ⟨⟨_, h2⟩, _⟩ := hs
  linarith

lemma scanPass2Go_sorted (f1 : Feature) (bin1 : ℕ) :
    ∀ (fs : List (Feature × ℕ)) (us : List Bool), us.length = fs.length →
      fs.Pairwise (fun a b => a.1.rt ≤ b.1.rt) →
      (scanPass2Go f1 bin1 fs us).1
        = (List.range fs.length).filterMap (fun k =>
            if us.getD k false = false
                ∧ similar_features f1 (fs.getD k default).1 RT_THRESHOLD MZ_THRESHOLD
                ∧ (bin1 = (fs.getD k default).2 ∨ bin1 + 1 = (fs.getD k default).2)
            then some (fs.getD k default) else none)
      ∧ (scanPass2Go f1 bin1 fs us).2
        = (List.range fs.length).map (fun k =>
            us.getD k false
              || decide (similar_features f1 (fs.getD k default).1 RT_THRESHOLD MZ_THRESHOLD
                  ∧ (bin1 = (fs.getD k default).2 ∨ bin1 + 1 = (fs.getD k default).2))) := by
  intro fs
  induction fs with
  | nil =>
    intro us hlen _
    cases us with
    | cons a t => simp at hlen
    | nil => simp [scanPass2Go]
  | cons fb2 rest ih =>
    intro us hlen hsorted
    cases us with
    | nil => simp at hlen
    | cons u us' =>
      have hlen' : us'.length = rest.length := by simpa using hlen
      rw [List.pairwise_cons] at hsorted
      obtain ⟨hhead, hsorted'⟩ := hsorted
      obtain ⟨ih1, ih2⟩ := ih us' hlen' hsorted'
      have hrange : List.range (fb2 :: rest).length
          = 0 :: (List.range rest.length).map Nat.succ := by
        rw [List.length_cons, List.range_succ_eq_map]
      have hfm_tail : ∀ u : Bool,
          ((List.range rest.length).map Nat.succ).filterMap (fun k =>
            if (u :: us').getD k false = false
                ∧ similar_features f1 (((fb2 :: rest).getD k default).1) RT_THRESHOLD
                    MZ_THRESHOLD
                ∧ (bin1 = ((fb2 :: rest).getD k default).2
                    ∨ bin1 + 1 = ((fb2 :: rest).getD k default).2)
            then some ((fb2 :: rest).getD k default) else none)
            = (List.range rest.length).filterMap (fun k =>
              if us'.getD k false = false
                  ∧ similar_features f1 ((rest.getD k default).1) RT_THRESHOLD MZ_THRESHOLD
                  ∧ (bin1 = (rest.getD k default).2 ∨ bin1 + 1 = (rest.getD k default).2)
              then some (rest.getD k default) else none) := by
        intro u
        rw [List.filterMap_map]
        apply List.filterMap_congr
        intro k _
        simp [Function.comp]
      have hmap_tail : ∀ u : Bool,
          ((List.range rest.length).map Nat.succ).map (fun k =>
            (u :: us').getD k false
              || decide (similar_features f1 (((fb2 :: rest).getD k default).1) RT_THRESHOLD
                    MZ_THRESHOLD
                  ∧ (bin1 = ((fb2 :: rest).getD k default).2
                      ∨ bin1 + 1 = ((fb2 :: rest).getD k default).2)))
            = (List.range rest.length).map (fun k =>
              us'.getD k false
                || decide (similar_features f1 ((rest.getD k default).1) RT_THRESHOLD
                      MZ_THRESHOLD
                    ∧ (bin1 = (rest.getD k default).2
                        ∨ bin1 + 1 = (rest.getD k default).2))) := by
        intro u
        rw [List.map_map]
        apply List.map_congr_left
        intro k _
        simp [Function.comp]
      cases u with
      | true =>
        have hstep : scanPass2Go f1 bin1 (fb2 :: rest) (true :: us')
            = ((scanPass2Go f1 bin1 rest us').1, true :: (scanPass2Go f1 bin1 rest us').2) := by
          simp [scanPass2Go]
        rw [hstep, hrange]
        constructor
        · rw [List.filterMap_cons]
          simp only [List.getD_cons_zero]
          rw [if_neg (by simp)]
          rw [hfm_tail true, ih1]
        · rw [List.map_cons]
          simp only [List.getD_cons_zero, Bool.true_or]
          rw [hmap_tail true, ih2]
      | false =>
        by_cases hbreak : f1.rt + RT_THRESHOLD < fb2.1.rt
        · have hstep : scanPass2Go f1 bin1 (fb2 :: rest) (false :: us')
              = ([], false :: us') := by
            simp [scanPass2Go, hbreak]
          rw [hstep, hrange]
          have hnotsim : ∀ k, k < rest.length →
              ¬ similar_features f1 ((rest.getD k default).1) RT_THRESHOLD MZ_THRESHOLD := by
            intro k hk
            apply not_similar_rt_high
            have hmem : rest.getD k default ∈ rest := getD_mem_of_lt rest k default hk
            have := hhead _ hmem
            linarith
          constructor
          · rw [List.filterMap_cons]
            simp only [List.getD_cons_zero]
            rw [if_neg (by
              intro hc
              exact not_similar_rt_high f1 fb2.1 hbreak hc.2.1)]
            rw [hfm_tail false, List.filterMap_eq_nil_iff.mpr]
            intro k hk
            rw [if_neg (by
              intro hc
              exact hnotsim k (List.mem_range.mp hk) hc.2.1)]
          · rw [List.map_cons]
            simp only [List.getD_cons_zero]
            rw [show (decide (similar_features f1 fb2.1 RT_THRESHOLD MZ_THRESHOLD
                ∧ (bin1 = fb2.2 ∨ bin1 + 1 = fb2.2))) = false by
              rw [decide_eq_false_iff_not]
              intro hc
              exact not_similar_rt_high f1 fb2.1 hbreak hc.1]
            rw [hmap_tail false]
            have : ∀ k ∈ List.range rest.length,
                (us'.getD k false
                  || decide (similar_features f1 ((rest.getD k default).1) RT_THRESHOLD
                      MZ_THRESHOLD ∧ (bin1 = (rest.getD k default).2
                        ∨ bin1 + 1 = (rest.getD k default).2)))
                  = us'.getD k false := by
              intro k hk
              rw [show (decide (similar_features f1 ((rest.getD k default).1) RT_THRESHOLD
                  MZ_THRESHOLD ∧ (bin1 = (rest.getD k default).2
                    ∨ bin1 + 1 = (rest.getD k default).2))) = false by
                rw [decide_eq_false_iff_not]
                intro hc
                exact hnotsim k (List.mem_range.mp hk) hc.1]
              simp
            rw [List.map_congr_left this, ← hlen', map_getD_range_self]
            simp
        · by_cases hcond : similar_features f1 fb2.1 RT_THRESHOLD MZ_THRESHOLD
              ∧ (bin1 = fb2.2 ∨ bin1 + 1 = fb2.2)
          · have hstep : scanPass2Go f1 bin1 (fb2 :: rest) (false :: us')
                = (fb2 :: (scanPass2Go f1 bin1 rest us').1,
                    true :: (scanPass2Go f1 bin1 rest us').2) := by
              simp [scanPass2Go, hbreak, hcond]
            rw [hstep, hrange]
            constructor
            · rw [List.filterMap_cons]
              simp only [List.getD_cons_zero]
              rw [if_pos (show True ∧ (similar_features f1 fb2.1 RT_THRESHOLD MZ_THRESHOLD
                  ∧ (bin1 = fb2.2 ∨ bin1 + 1 = fb2.2)) from ⟨trivial, hcond⟩)]
              rw [hfm_tail false, ih1]
            · rw [List.map_cons]
              simp only [List.getD_cons_zero]
              rw [show (decide (similar_features f1 fb2.1 RT_THRESHOLD MZ_THRESHOLD
                  ∧ (bin1 = fb2.2 ∨ bin1 + 1 = fb2.2))) = true from decide_eq_true hcond]
              rw [hmap_tail false, ih2]
              simp
          · have hstep : scanPass2Go f1 bin1 (fb2 :: rest) (false :: us')
                = ((scanPass2Go f1 bin1 rest us').1,
                    false :: (scanPass2Go f1 bin1 rest us').2) := by
              simp [scanPass2Go, hbreak, hcond]
            rw [hstep, hrange]
            constructor
            · rw [List.filterMap_cons]
              simp only [List.getD_cons_zero]
              rw [if_neg (by
                intro hc
                exact hcond hc.2)]
              rw [hfm_tail false, ih1]
            · rw [List.map_cons]
              simp only [List.getD_cons_zero]
              rw [show (decide (similar_features f1 fb2.1 RT_THRESHOLD MZ_THRESHOLD
                  ∧ (bin1 = fb2.2 ∨ bin1 + 1 = fb2.2))) = false from
                decide_eq_false hcond]
              rw [hmap_tail false, ih2]
              simp

/-- Spec-side description of the step-1 matched candidates of one pass-0
representative: the not-yet-consumed pass-1 entries that are RT/mz-similar
and whose bin equals `bin1` or `bin1 + 1`, in list order. -/
def step1Cands (pass2s : List (Feature × ℕ)) (us : List Bool) (f1 : Feature) (bin1 : ℕ) :
    List (Feature × ℕ) :=
  (List.range pass2s.length).filterMap (fun j =>
    if us.getD j false = false
        ∧ similar_features f1 (pass2s.getD j default).1 RT_THRESHOLD MZ_THRESHOLD
        ∧ (bin1 = (pass2s.getD j default).2 ∨ bin1 + 1 = (pass2s.getD j default).2)
    then some (pass2s.getD j default) else none)

lemma foldl_maxTag_spec (im1 : List ℚ) (l : List (Feature × ℕ)) :
    ∀ init : Feature × ℚ,
      ((l.foldl (fun best fb2 =>
          if polygon_area best.1.hull < polygon_area fb2.1.hull then (fb2.1, im1.getD fb2.2 0)
          else best) init) = init
        ∨ ∃ c ∈ l, (l.foldl (fun best fb2 =>
            if polygon_area best.1.hull < polygon_area fb2.1.hull then (fb2.1, im1.getD fb2.2 0)
            else best) init) = (c.1, im1.getD c.2 0))
      ∧ polygon_area init.1.hull ≤ polygon_area (l.foldl (fun best fb2 =>
          if polygon_area best.1.hull < polygon_area fb2.1.hull then (fb2.1, im1.getD fb2.2 0)
          else best) init).1.hull
      ∧ ∀ c ∈ l, polygon_area c.1.hull ≤ polygon_area (l.foldl (fun best fb2 =>
          if polygon_area best.1.hull < polygon_area fb2.1.hull then (fb2.1, im1.getD fb2.2 0)
          else best) init).1.hull := by
  induction l with
  | nil => intro init; simp
  | cons a l ih =>
    intro init
    simp only [List.foldl_cons]
    by_cases h : polygon_area init.1.hull < polygon_area a.1.hull
    · rw [if_pos h]
      obtain ⟨h1, h2, h3⟩ := ih (a.1, im1.getD a.2 0)
      refine ⟨?_, le_trans h.le h2, ?_⟩
      · rcases h1 with h1 | ⟨c, hc, hc2⟩
        · exact Or.inr ⟨a, List.mem_cons_self _ _, h1⟩
        · exact Or.inr ⟨c, List.mem_cons_of_mem _ hc, hc2⟩
      · intro c hc
        rcases List.mem_cons.mp hc with hc | hc
        · rw [hc]
          exact h2
        · exact h3 c hc
    · rw [if_neg h]
      obtain ⟨h1, h2, h3⟩ := ih init
      refine ⟨?_, h2, ?_⟩
      · rcases h1 with h1 | ⟨c, hc, hc2⟩
        · exact Or.inl h1
        · exact Or.inr ⟨c, List.mem_cons_of_mem _ hc, hc2⟩
      · intro c hc
        rcases List.mem_cons.mp hc with hc | hc
        · rw [hc]
          exact le_trans (not_lt.mp h) h2
        · exact h3 c hc

/-- C4: in cross-pass matching step 1, a not-yet-consumed pass-1
representative is matched to (and consumed by) the pass-0 representative
`(f1, bin1)` iff it is RT/mz-similar to `f1` and lies in bin `bin1` or
`bin1 + 1`; the step emits exactly one entry: the max-area choice among
`f1` and the matched candidates, tagged with the average IM of the pass-0
bin `bin1` if `f1` wins and of the candidate's pass-1 bin otherwise. -/
theorem claim_C4 (im0 im1 : List ℚ) (pass2s : List (Feature × ℕ)) (us : List Bool)
    (out : List (Feature × ℚ)) (f1 : Feature) (bin1 : ℕ)
    (hsorted : pass2s.Pairwise (fun a b => a.1.rt ≤ b.1.rt))
    (hlen : us.length = pass2s.length) :
    (∀ j, j < pass2s.length →
        (step1Iter im0 im1 pass2s (us, out) (f1, bin1)).1.getD j false
          = (us.getD j false
              || decide (similar_features f1 (pass2s.getD j default).1 RT_THRESHOLD MZ_THRESHOLD
                  ∧ (bin1 = (pass2s.getD j default).2 ∨ bin1 + 1 = (pass2s.getD j default).2))))
    ∧ ∃ e, (step1Iter im0 im1 pass2s (us, out) (f1, bin1)).2 = out ++ [e]
        ∧ (e = (f1, im0.getD bin1 0)
            ∨ ∃ c ∈ step1Cands pass2s us f1 bin1, e = (c.1, im1.getD c.2 0))
        ∧ polygon_area f1.hull ≤ polygon_area e.1.hull
        ∧ ∀ c ∈ step1Cands pass2s us f1 bin1, polygon_area c.1.hull ≤ polygon_area e.1.hull := by
  have hfle : boundedLeftSearch (fun x : Feature × ℕ => x.1.rt) (f1.rt - RT_THRESHOLD) pass2s
      ≤ pass2s.length := boundedLeftSearch_le_length _ _ _
  have hfleu : boundedLeftSearch (fun x : Feature × ℕ => x.1.rt) (f1.rt - RT_THRESHOLD) pass2s
      ≤ us.length := by omega
  have hsorted' : (pass2s.drop (boundedLeftSearch (fun x : Feature × ℕ => x.1.rt)
      (f1.rt - RT_THRESHOLD) pass2s)).Pairwise (fun a b => a.1.rt ≤ b.1.rt) :=
    hsorted.sublist (List.drop_sublist _ _)
  have hlend : (us.drop (boundedLeftSearch (fun x : Feature × ℕ => x.1.rt)
        (f1.rt - RT_THRESHOLD) pass2s)).length
      = (pass2s.drop (boundedLeftSearch (fun x : Feature × ℕ => x.1.rt)
        (f1.rt - RT_THRESHOLD) pass2s)).length := by
    simp [hlen]
  obtain ⟨hs1, hs2⟩ := scanPass2Go_sorted f1 bin1
    (pass2s.drop (boundedLeftSearch (fun x : Feature × ℕ => x.1.rt)
      (f1.rt - RT_THRESHOLD) pass2s))
    (us.drop (boundedLeftSearch (fun x : Feature × ℕ => x.1.rt)
      (f1.rt - RT_THRESHOLD) pass2s)) hlend hsorted'
  have hnotsim_pre : ∀ j, j < boundedLeftSearch (fun x : Feature × ℕ => x.1.rt)
      (f1.rt - RT_THRESHOLD) pass2s →
      ¬ similar_features f1 (pass2s.getD j default).1 RT_THRESHOLD MZ_THRESHOLD := by
    intro j hj
    apply not_similar_rt_low
    have := boundedLeftSearch_lt_not (fun x : Feature × ℕ => x.1.rt)
      (f1.rt - RT_THRESHOLD) pass2s j default hj
    simp only [not_le] at this
    linarith
  have hcands : step1Cands pass2s us f1 bin1
      = (scanPass2Go f1 bin1
          (pass2s.drop (boundedLeftSearch (fun x : Feature × ℕ => x.1.rt)
            (f1.rt - RT_THRESHOLD) pass2s))
          (us.drop (boundedLeftSearch (fun x : Feature × ℕ => x.1.rt)
            (f1.rt - RT_THRESHOLD) pass2s))).1 := by
    rw [hs1]
    unfold step1Cands
    rw [show pass2s.length = boundedLeftSearch (fun x : Feature × ℕ => x.1.rt)
        (f1.rt - RT_THRESHOLD) pass2s
          + (pass2s.length - boundedLeftSearch (fun x : Feature × ℕ => x.1.rt)
            (f1.rt - RT_THRESHOLD) pass2s) by omega]
    rw [List.range_add, List.filterMap_append]
    rw [List.filterMap_eq_nil_iff.mpr (by
      intro j hj
      rw [if_neg (by
        intro hc
        exact hnotsim_pre j (List.mem_range.mp hj) hc.2.1)])]
    rw [List.nil_append, List.filterMap_map]
    simp only [List.length_drop]
    apply List.filterMap_congr
    intro k hk
    simp only [Function.comp]
    rw [getD_drop, getD_drop]
  constructor
  · intro j hj
    simp only [step1Iter]
    by_cases hjf : j < boundedLeftSearch (fun x : Feature × ℕ => x.1.rt)
        (f1.rt - RT_THRESHOLD) pass2s
    · rw [getD_splice_lt _ _ _ _ _ hfleu hjf]
      rw [show (decide (similar_features f1 (pass2s.getD j default).1 RT_THRESHOLD MZ_THRESHOLD
          ∧ (bin1 = (pass2s.getD j default).2 ∨ bin1 + 1 = (pass2s.getD j default).2)))
            = false by
        rw [decide_eq_false_iff_not]
        intro hc
        exact hnotsim_pre j hjf hc.1]
      simp
    · rw [getD_splice_ge _ _ _ _ _ hfleu (by omega), hs2]
      rw [getD_map_range _ _ _ _ (by
        simp only [List.length_drop]
        omega)]
      rw [getD_drop, getD_drop,
        show boundedLeftSearch (fun x : Feature × ℕ => x.1.rt) (f1.rt - RT_THRESHOLD) pass2s
          + (j - boundedLeftSearch (fun x : Feature × ℕ => x.1.rt)
            (f1.rt - RT_THRESHOLD) pass2s) = j by omega]
  · obtain ⟨m1, m2, m3⟩ := foldl_maxTag_spec im1
      (scanPass2Go f1 bin1
        (pass2s.drop (boundedLeftSearch (fun x : Feature × ℕ => x.1.rt)
          (f1.rt - RT_THRESHOLD) pass2s))
        (us.drop (boundedLeftSearch (fun x : Feature × ℕ => x.1.rt)
          (f1.rt - RT_THRESHOLD) pass2s))).1 (f1, im0.getD bin1 0)
    refine ⟨_, rfl, ?_, m2, ?_⟩
    · rcases m1 with m1 | ⟨c, hc, hc2⟩
      · exact Or.inl m1
      · refine Or.inr ⟨c, ?_, hc2⟩
        rw [hcands]
        exact hc
    · intro c hc
      rw [hcands] at hc
      exact m3 c hc

/-- Witness for C4: a single bin-adjacent similar pass-1 candidate gets
consumed. -/
theorem claim_C4_witness :
    (step1Iter [10] [20, 30] [(⟨1, 0, 1, [(0,0),(1,0),(1,1),(0,1)]⟩, 1)]
        ([false], []) (⟨0, 0, 1, []⟩, 0)).1.getD 0 false = true := by
  have h := (claim_C4 [10] [20, 30] [(⟨1, 0, 1, [(0,0),(1,0),(1,1),(0,1)]⟩, 1)] [false] []
      ⟨0, 0, 1, []⟩ 0 (by simp) (by simp)).1 0 (by simp)
  rw [h]
  simp only [List.getD_cons_zero, Bool.false_or, decide_eq_true_eq]
  norm_num [similar_features, RT_THRESHOLD, MZ_THRESHOLD, abs_le]

lemma scanCleanGo_cond (fb1 : Feature × ℚ) :
    ∀ (fs : List (Feature × ℚ)) (us : List Bool) (m : Feature × ℚ),
      m ∈ (scanCleanGo fb1 fs us).1 →
      similar_features fb1.1 m.1 RT_THRESHOLD MZ_THRESHOLD ∧ fb1.2 = m.2 ∧ m ∈ fs := by
  intro fs
  induction fs with
  | nil => intro us m hm; simp [scanCleanGo] at hm
  | cons fb2 rest ih =>
    intro us m hm
    cases us with
    | nil => simp [scanCleanGo] at hm
    | cons u us' =>
      cases u with
      | true =>
        have hstep : (scanCleanGo fb1 (fb2 :: rest) (true :: us')).1
            = (scanCleanGo fb1 rest us').1 := by
          simp [scanCleanGo]
        rw [hstep] at hm
        obtain ⟨h1, h2, h3⟩ := ih us' m hm
        exact ⟨h1, h2, List.mem_cons_of_mem _ h3⟩
      | false =>
        by_cases hbreak : fb1.1.rt + RT_THRESHOLD < fb2.1.rt
        · have hstep : (scanCleanGo fb1 (fb2 :: rest) (false :: us')).1 = [] := by
            simp [scanCleanGo, hbreak]
          rw [hstep] at hm
          simp at hm
        · by_cases hcond : similar_features fb1.1 fb2.1 RT_THRESHOLD MZ_THRESHOLD
              ∧ fb1.2 = fb2.2
          · have hstep : (scanCleanGo fb1 (fb2 :: rest) (false :: us')).1
                = fb2 :: (scanCleanGo fb1 rest us').1 := by
              simp [scanCleanGo, hbreak, hcond]
            rw [hstep] at hm
            rcases List.mem_cons.mp hm with hm | hm
            · rw [hm]
              exact ⟨hcond.1, hcond.2, List.mem_cons_self _ _⟩
            · obtain ⟨h1, h2, h3⟩ := ih us' m hm
              exact ⟨h1, h2, List.mem_cons_of_mem _ h3⟩
          · have hstep : (scanCleanGo fb1 (fb2 :: rest) (false :: us')).1
                = (scanCleanGo fb1 rest us').1 := by
              simp [scanCleanGo, hbreak, hcond]
            rw [hstep] at hm
            obtain ⟨h1, h2, h3⟩ := ih us' m hm
            exact ⟨h1, h2, List.mem_cons_of_mem _ h3⟩

/-- Invariant of the cleanup sweep: every recorded cluster is an anchor
followed by members that the code checked to be similar to the anchor
with exactly equal assigned IM; cluster members come from the input list;
each output entry is the max-area member of its cluster; and `cleaned` is
the feature component of `clean_bins`. -/
def CleanInv (fbs : List (Feature × ℚ)) (st : CleanState) : Prop :=
  (∀ cl ∈ st.clusters, ∃ a t, cl = a :: t
      ∧ (∀ m ∈ t, similar_features a.1 m.1 RT_THRESHOLD MZ_THRESHOLD ∧ a.2 = m.2)
      ∧ ∀ m ∈ cl, m ∈ fbs)
  ∧ List.Forall₂ (fun (rep : Feature × ℚ) cl => rep ∈ cl
      ∧ ∀ m ∈ cl, polygon_area m.1.hull ≤ polygon_area rep.1.hull)
      st.clean_bins st.clusters
  ∧ st.cleaned = st.clean_bins.map Prod.fst

lemma cleanStep_inv (fbs : List (Feature × ℚ)) (st : CleanState) (i : ℕ)
    (hi : i < fbs.length) (h : CleanInv fbs st) : CleanInv fbs (cleanStep fbs st i) := by
  obtain ⟨h1, h2, h3⟩ := h
  unfold cleanStep
  by_cases hflag : st.used.getD i false = true
  · rw [if_pos hflag]
    exact ⟨h1, h2, h3⟩
  · rw [if_neg hflag]
    have hmax := foldl_max_mem (fun x : Feature × ℚ => polygon_area x.1.hull)
      (scanCleanGo (fbs.getD i default) (fbs.drop (boundedLeftSearch
        (fun x : Feature × ℚ => x.1.rt) ((fbs.getD i default).1.rt - RT_THRESHOLD) fbs))
        ((st.used.set i true).drop (boundedLeftSearch
          (fun x : Feature × ℚ => x.1.rt) ((fbs.getD i default).1.rt - RT_THRESHOLD) fbs))).1
      (fbs.getD i default)
    have hge := foldl_max_ge (fun x : Feature × ℚ => polygon_area x.1.hull)
      (scanCleanGo (fbs.getD i default) (fbs.drop (boundedLeftSearch
        (fun x : Feature × ℚ => x.1.rt) ((fbs.getD i default).1.rt - RT_THRESHOLD) fbs))
        ((st.used.set i true).drop (boundedLeftSearch
          (fun x : Feature × ℚ => x.1.rt) ((fbs.getD i default).1.rt - RT_THRESHOLD) fbs))).1
      (fbs.getD i default)
    refine ⟨?_, ?_, ?_⟩
    · intro cl hcl
      rcases List.mem_append.mp hcl with hcl | hcl
      · exact h1 cl hcl
      · rw [List.mem_singleton.mp hcl]
        refine ⟨fbs.getD i default, _, rfl, ?_, ?_⟩
        · intro m hm
          obtain ⟨hs, he, _⟩ := scanCleanGo_cond (fbs.getD i default) _ _ m hm
          exact ⟨hs, he⟩
        · intro m hm
          rcases List.mem_cons.mp hm with hm | hm
          · rw [hm]
            exact getD_mem_of_lt fbs i default hi
          · obtain ⟨_, _, hmem⟩ := scanCleanGo_cond (fbs.getD i default) _ _ m hm
            exact List.mem_of_mem_drop hmem
    · refine List.rel_append h2 (List.Forall₂.cons ⟨?_, ?_⟩ List.Forall₂.nil)
      · rcases hmax with hmax | hmax
        · rw [hmax]
          exact List.mem_cons_self _ _
        · exact List.mem_cons_of_mem _ hmax
      · intro m hm
        rcases List.mem_cons.mp hm with hm | hm
        · rw [hm]
          exact hge.1
        · exact hge.2 m hm
    · rw [h3]
      simp

lemma clean_fold_inv (fbs : List (Feature × ℚ)) :
    ∀ (idxs : List ℕ), (∀ i ∈ idxs, i < fbs.length) → ∀ (st : CleanState),
      CleanInv fbs st → CleanInv fbs (idxs.foldl (cleanStep fbs) st) := by
  intro idxs
  induction idxs with
  | nil => intro _ st h; exact h
  | cons i idxs ih =>
    intro hb st h
    simp only [List.foldl_cons]
    exact ih (fun k hk => hb k (List.mem_cons_of_mem _ hk)) _
      (cleanStep_inv fbs st i (hb i (List.mem_cons_self _ _)) h)

lemma cleanupCore_inv (fbs : List (Feature × ℚ)) : CleanInv fbs (cleanupCore fbs) := by
  unfold cleanupCore
  refine clean_fold_inv fbs (List.range fbs.length) (fun i hi => List.mem_range.mp hi) _
    ⟨by simp, List.Forall₂.nil, by simp⟩

/-- C5: in the final cleanup sweep of `match_features`, every cluster is
an anchor plus members the code verified to be RT/mz-similar to the
anchor with exactly equal assigned IM; hence all members of a cluster
share one IM value, so two features with different assigned IM are never
merged; each cluster collapses to exactly one max-area representative. -/
theorem claim_C5 (fbs : List (Feature × ℚ)) :
    (∀ cl ∈ (cleanupCore fbs).clusters, ∃ a t, cl = a :: t
        ∧ (∀ m ∈ t, similar_features a.1 m.1 RT_THRESHOLD MZ_THRESHOLD ∧ a.2 = m.2)
        ∧ ∀ m1 ∈ cl, ∀ m2 ∈ cl, m1.2 = m2.2)
    ∧ List.Forall₂ (fun (rep : Feature × ℚ) cl => rep ∈ cl
        ∧ ∀ m ∈ cl, polygon_area m.1.hull ≤ polygon_area rep.1.hull)
        (cleanupCore fbs).clean_bins (cleanupCore fbs).clusters
    ∧ ∀ (im0 im1 : List ℚ) (features1 features2 : List (List Feature)),
        (match_features im0 im1 features1 features2).2
          = (cleanupCore (fbsSorted im0 im1 features1 features2)).clean_bins := by
  obtain ⟨h1, h2, _⟩ := cleanupCore_inv fbs
  refine ⟨?_, h2, fun _ _ _ _ => rfl⟩
  intro cl hcl
  obtain ⟨a, t, hat, hsim, _⟩ := h1 cl hcl
  refine ⟨a, t, hat, hsim, ?_⟩
  intro m1 hm1 m2 hm2
  rw [hat] at hm1 hm2
  have him : ∀ m ∈ a :: t, a.2 = m.2 := by
    intro m hm
    rcases List.mem_cons.mp hm with hm | hm
    · rw [hm]
    · exact (hsim m hm).2
  rw [← him m1 hm1, ← him m2 hm2]

lemma scanPass2Go_subset (f1 : Feature) (bin1 : ℕ) :
    ∀ (fs : List (Feature × ℕ)) (us : List Bool) (c : Feature × ℕ),
      c ∈ (scanPass2Go f1 bin1 fs us).1 → c ∈ fs := by
  intro fs
  induction fs with
  | nil => intro us c hc; simp [scanPass2Go] at hc
  | cons fb2 rest ih =>
    intro us c hc
    cases us with
    | nil => simp [scanPass2Go] at hc
    | cons u us' =>
      cases u with
      | true =>
        rw [show (scanPass2Go f1 bin1 (fb2 :: rest) (true :: us')).1
            = (scanPass2Go f1 bin1 rest us').1 by simp [scanPass2Go]] at hc
        exact List.mem_cons_of_mem _ (ih us' c hc)
      | false =>
        by_cases hbreak : f1.rt + RT_THRESHOLD < fb2.1.rt
        · rw [show (scanPass2Go f1 bin1 (fb2 :: rest) (false :: us')).1 = []
            by simp [scanPass2Go, hbreak]] at hc
          simp at hc
        · by_cases hcond : similar_features f1 fb2.1 RT_THRESHOLD MZ_THRESHOLD
              ∧ (bin1 = fb2.2 ∨ bin1 + 1 = fb2.2)
          · rw [show (scanPass2Go f1 bin1 (fb2 :: rest) (false :: us')).1
                = fb2 :: (scanPass2Go f1 bin1 rest us').1
              by simp [scanPass2Go, hbreak, hcond]] at hc
            rcases List.mem_cons.mp hc with hc | hc
            · rw [hc]
              exact List.mem_cons_self _ _
            · exact List.mem_cons_of_mem _ (ih us' c hc)
          · rw [show (scanPass2Go f1 bin1 (fb2 :: rest) (false :: us')).1
                = (scanPass2Go f1 bin1 rest us').1
              by simp [scanPass2Go, hbreak, hcond]] at hc
            exact List.mem_cons_of_mem _ (ih us' c hc)

lemma step1_fold_mem (im0 im1 : List ℚ) (pass2s : List (Feature × ℕ)) :
    ∀ (pass1 : List (Feature × ℕ)) (st : List Bool × List (Feature × ℚ))
      (e : Feature × ℚ), e ∈ (pass1.foldl (step1Iter im0 im1 pass2s) st).2 →
      e ∈ st.2 ∨ (∃ q ∈ pass1, e.1 = q.1) ∨ (∃ q ∈ pass2s, e.1 = q.1) := by
  intro pass1
  induction pass1 with
  | nil => intro st e he; exact Or.inl he
  | cons fb1 rest ih =>
    intro st e he
    simp only [List.foldl_cons] at he
    rcases ih _ e he with he2 | he2 | he2
    · simp only [step1Iter] at he2
      rcases List.mem_append.mp he2 with he3 | he3
      · exact Or.inl he3
      · rw [List.mem_singleton.mp he3]
        obtain ⟨m1, _, _⟩ := foldl_maxTag_spec im1
          (scanPass2Go fb1.1 fb1.2
            (pass2s.drop (boundedLeftSearch (fun x : Feature × ℕ => x.1.rt)
              (fb1.1.rt - RT_THRESHOLD) pass2s))
            (st.1.drop (boundedLeftSearch (fun x : Feature × ℕ => x.1.rt)
              (fb1.1.rt - RT_THRESHOLD) pass2s))).1 (fb1.1, im0.getD fb1.2 0)
        rcases m1 with m1 | ⟨c, hc, hc2⟩
        · rw [m1]
          exact Or.inr (Or.inl ⟨fb1, List.mem_cons_self _ _, rfl⟩)
        · rw [hc2]
          refine Or.inr (Or.inr ⟨c, ?_, rfl⟩)
          exact List.mem_of_mem_drop (scanPass2Go_subset fb1.1 fb1.2 _ _ c hc)
    · obtain ⟨q, hq, hqe⟩ := he2
      exact Or.inr (Or.inl ⟨q, List.mem_cons_of_mem _ hq, hqe⟩)
    · exact Or.inr (Or.inr he2)

lemma step2FeatureBins_mem (im0 im1 : List ℚ) (features1 features2 : List (List Feature)) :
    ∀ e ∈ step2FeatureBins im0 im1 features1 features2,
      (∃ bin ∈ features1, e.1 ∈ bin) ∨ (∃ bin ∈ features2, e.1 ∈ bin) := by
  intro e he
  have hpass2 : ∀ q : Feature × ℕ, q ∈ pass2Sorted features2 →
      ∃ bin ∈ features2, q.1 ∈ bin := by
    intro q hq
    rw [pass2Sorted] at hq
    exact match_features_pass_mem features2 q
      ((List.perm_insertionSort _ _).subset hq)
  rcases List.mem_append.mp he with he | he
  · unfold step1 at he
    rcases step1_fold_mem im0 im1 (pass2Sorted features2)
        (match_features_pass features1) _ e he with he2 | he2 | he2
    · simp at he2
    · obtain ⟨q, hq, hqe⟩ := he2
      obtain ⟨bin, hbin, hmem⟩ := match_features_pass_mem features1 q hq
      exact Or.inl ⟨bin, hbin, hqe ▸ hmem⟩
    · obtain ⟨q, hq, hqe⟩ := he2
      obtain ⟨bin, hbin, hmem⟩ := hpass2 q hq
      exact Or.inr ⟨bin, hbin, hqe ▸ hmem⟩
  · obtain ⟨j, hjr, hj⟩ := List.mem_filterMap.mp he
    have hjlen : j < (pass2Sorted features2).length := List.mem_range.mp hjr
    by_cases hjf : (step1 im0 im1 (match_features_pass features1)
        (pass2Sorted features2)).1.getD j false
    · rw [if_pos hjf] at hj
      simp at hj
    · rw [if_neg hjf] at hj
      have hje := Option.some_injective _ hj
      obtain ⟨bin, hbin, hmem⟩ := hpass2 ((pass2Sorted features2).getD j default)
        (getD_mem_of_lt _ _ _ hjlen)
      refine Or.inr ⟨bin, hbin, ?_⟩
      rw [← hje]
      exact hmem

/-- C10 (frame condition): every feature output by a matching stage is
one of that stage's input features, unchanged — `match_features_internal`
outputs members of its input map, `match_features_pass` outputs features
drawn from some input bin, and `match_features` outputs features drawn
from one of the two passes' bins. The stages only select
representatives; no feature is created or modified. -/
theorem claim_C10 :
    (∀ (features : List Feature) (f : Feature),
        f ∈ match_features_internal features → f ∈ features)
    ∧ (∀ (features : List (List Feature)) (q : Feature × ℕ),
        q ∈ match_features_pass features → ∃ bin ∈ features, q.1 ∈ bin)
    ∧ (∀ (im0 im1 : List ℚ) (features1 features2 : List (List Feature)) (g : Feature),
        g ∈ (match_features im0 im1 features1 features2).1 →
          (∃ bin ∈ features1, g ∈ bin) ∨ (∃ bin ∈ features2, g ∈ bin)) := by
  refine ⟨fun features f hf => match_features_internal_subset features f hf,
    fun features q hq => match_features_pass_mem features q hq, ?_⟩
  intro im0 im1 features1 features2 g hg
  obtain ⟨h1, h2, h3⟩ := cleanupCore_inv (fbsSorted im0 im1 features1 features2)
  simp only [match_features] at hg
  rw [h3] at hg
  obtain ⟨x, hx, hxg⟩ := List.mem_map.mp hg
  obtain ⟨cl, hcl, hxcl, _⟩ := forall₂_mem_left h2 x hx
  obtain ⟨_, _, _, _, hsub⟩ := h1 cl hcl
  have hxs : x ∈ fbsSorted im0 im1 features1 features2 := hsub x hxcl
  rw [fbsSorted] at hxs
  have hx2 : x ∈ step2FeatureBins im0 im1 features1 features2 :=
    (List.perm_insertionSort _ _).subset hxs
  rcases step2FeatureBins_mem im0 im1 features1 features2 x hx2 with h | h
  · obtain ⟨bin, hbin, hmem⟩ := h
    exact Or.inl ⟨bin, hbin, hxg ▸ hmem⟩
  · obtain ⟨bin, hbin, hmem⟩ := h
    exact Or.inr ⟨bin, hbin, hxg ▸ hmem⟩

/-- Witness for C10 on a concrete singleton feature map. -/
theorem claim_C10_witness :
    (⟨0, 0, 1, []⟩ : Feature) ∈ [(⟨0, 0, 1, []⟩ : Feature)] :=
  claim_C10.1 [⟨0, 0, 1, []⟩] ⟨0, 0, 1, []⟩ (by
    have h : match_features_internal [(⟨0, 0, 1, []⟩ : Feature)] = [⟨0, 0, 1, []⟩] := by
      norm_num [match_features_internal, sortFeaturesByRt, List.insertionSort,
        List.orderedInsert, matchInternalStep, boundedLeftSearch, collectSimilarGo,
        maxAreaFold, RT_THRESHOLD, List.range_succ]
    rw [h]
    simp)

end FFIM
